import Mathlib

/-!
# Verification of the chatMulti server core (src/server.py)

Shallow embedding of the session/room state manager of `ChatServer` in
`src/server.py`.  Python dictionaries are modelled as association lists in
insertion order (assignment to a fresh key appends, to an existing key
replaces in place), Python sets of usernames as duplicate-free lists, and
the `StreamWriter` of a connection as a numeric connection identifier.
A value read from a JSON message with `msg.get(k)` is an `Option String`;
Python truthiness of such a value (`if not x`) is false exactly for `None`
and the empty string.  Frames written to a client are recorded as pure
output values instead of performing I/O; the per-recipient try/except of
`broadcast_room` (write failures) is not modelled, writes always succeed.
A dictionary access that would raise `KeyError` in Python is modelled as
`Except.error ()`: in `handle_client` such an exception is caught by the
outer `except Exception` clause, terminating the read loop, so the
corresponding system transition runs the `finally` cleanup path.
-/

namespace ChatMulti

/-- A frame sent by the server to a client, after `json.dumps`: the six
response shapes produced in `src/server.py` (`type` field is the
constructor; the source key `from` of `chat_message` is `sender` here). -/
inductive Frame where
  | info (message : String) (room : Option String)
  | error (message : String)
  | roomList (rooms : List String)
  | roomJoined (room : String)
  | roomLeft (room : String)
  | chatMessage (room sender message : String)
deriving DecidableEq, Repr

/-- Value of `self.clients[username]`: the `{"writer": w, "room": r}` dict
(line 33 of server.py); the writer is the owning connection's id. -/
structure ClientInfo where
  writer : Nat
  room : Option String
deriving DecidableEq, Repr

/-- The two registries owned by `ChatServer`: `self.clients`
(username -> ClientInfo) and `self.rooms` (room name -> member set). -/
structure ServerState where
  clients : List (String × ClientInfo)
  rooms : List (String × List String)
deriving DecidableEq, Repr

/-- Python truthiness of an optional string: `None` and `""` are falsy. -/
def truthy : Option String → Bool
  | none => false
  | some s => s != ""

section AssocList

variable {α β : Type} [DecidableEq α]

/-- Lookup in an association list (Python `d[k]` / `d.get(k)`): first
entry with the given key. -/
def alGet (k : α) : List (α × β) → Option β
  | [] => none
  | p :: l => if p.1 = k then some p.2 else alGet k l

/-- Python dict assignment `d[k] = v`: replace the value in place when the
key is present, append a fresh entry otherwise. -/
def alSet (k : α) (v : β) : List (α × β) → List (α × β)
  | [] => [(k, v)]
  | p :: l => if p.1 = k then (k, v) :: l else p :: alSet k v l

/-- In-place mutation of the value stored under `k` (Python
`d[k].add(x)` / `d[k].remove(x)`); entries with other keys are untouched,
a missing key makes this a no-op (the source would raise `KeyError`; the
reachability invariants show the key is always present at the call sites). -/
def alUpdate (k : α) (f : β → β) (l : List (α × β)) : List (α × β) :=
  l.map fun p => if p.1 = k then (p.1, f p.2) else p

/-- Python `d.pop(k, None)`: drop the entry with the given key. -/
def alRemove (k : α) : List (α × β) → List (α × β)
  | [] => []
  | p :: l => if p.1 = k then l else p :: alRemove k l

end AssocList

/-- Python `set.add`: no-op when present, else insert (at the end,
the order inside a member set is irrelevant to every property proved). -/
def setAdd (u : String) (l : List String) : List String :=
  if u ∈ l then l else l ++ [u]

/-- `self.rooms.get(room, set())` (lines 169, 188, 224, 251). -/
def roomGet (s : ServerState) (r : String) : List String :=
  (alGet r s.rooms).getD []

/-- `list(self.rooms.keys())` as sent in a `room_list` frame. -/
def listRoomNames (s : ServerState) : List String :=
  s.rooms.map Prod.fst

/-- `ChatServer.handle_register` (lines 97-117).  Returns the value the
handler returns (the new per-connection `username` local), the new server
state and the frames written.  `self.rooms["general"].add(username)`
presumes the default room exists (`KeyError` otherwise); theorem
`default_room_never_deleted` shows it always does. -/
def handle_register (msgUsername : Option String) (conn : Nat) (s : ServerState) :
    Option String × ServerState × List (Nat × Frame) :=
  match msgUsername with
  | none => (none, s, [(conn, .error "username required")])
  | some u =>
    if u = "" then (none, s, [(conn, .error "username required")])
    else if (alGet u s.clients).isSome then
      (none, s, [(conn, .error "username already taken")])
    else
      let clients' := alSet u ⟨conn, some "general"⟩ s.clients
      let rooms' := alUpdate "general" (setAdd u) s.rooms
      (some u, ⟨clients', rooms'⟩,
        [(conn, .info ("Registered as " ++ u) (some "general"))])

/-- `ChatServer.handle_list_rooms` (lines 119-123). -/
def handle_list_rooms (conn : Nat) (s : ServerState) : List (Nat × Frame) :=
  [(conn, .roomList (listRoomNames s))]

/-- `ChatServer.handle_create_room` (lines 125-151). -/
def handle_create_room (msgRoom : Option String) (conn : Nat)
    (username : Option String) (s : ServerState) :
    ServerState × List (Nat × Frame) :=
  if truthy username = false then (s, [(conn, .error "register first")])
  else
    match msgRoom with
    | none => (s, [(conn, .error "room name required")])
    | some r =>
      if r = "" then (s, [(conn, .error "room name required")])
      else if (alGet r s.rooms).isSome then
        (s, [(conn, .error "room already exists")])
      else
        let s' : ServerState := ⟨s.clients, alSet r [] s.rooms⟩
        (s', [(conn, .info ("Room \x27" ++ r ++ "\x27 created") none),
              (conn, .roomList (listRoomNames s'))])

/-- `ChatServer.handle_join_room` (lines 153-180).
`self.clients[username]["room"]` raises `KeyError` when the username has
no record (modelled as `.error ()`, unreachable by invariant `connReg`). -/
def handle_join_room (msgRoom : Option String) (conn : Nat)
    (username : Option String) (s : ServerState) :
    Except Unit (ServerState × List (Nat × Frame)) :=
  match username with
  | none => .ok (s, [(conn, .error "register first")])
  | some uname =>
    if uname = "" then .ok (s, [(conn, .error "register first")])
    else
      match msgRoom with
      | none => .ok (s, [(conn, .error "room name required")])
      | some r =>
        if r = "" then .ok (s, [(conn, .error "room name required")])
        else if (alGet r s.rooms).isSome = false then
          .ok (s, [(conn, .error "room does not exist")])
        else
          match alGet uname s.clients with
          | none => .error ()
          | some info =>
            let rooms1 :=
              match info.room with
              | none => s.rooms
              | some cr =>
                if cr ≠ "" ∧ uname ∈ roomGet s cr then
                  alUpdate cr (fun m => m.erase uname) s.rooms
                else s.rooms
            let rooms2 := alUpdate r (setAdd uname) rooms1
            let clients' := alUpdate uname (fun i => ⟨i.writer, some r⟩) s.clients
            .ok (⟨clients', rooms2⟩, [(conn, .roomJoined r)])

/-- `ChatServer.handle_leave_room` (lines 182-198). -/
def handle_leave_room (conn : Nat) (username : Option String) (s : ServerState) :
    Except Unit (ServerState × List (Nat × Frame)) :=
  match username with
  | none => .ok (s, [(conn, .error "register first")])
  | some uname =>
    if uname = "" then .ok (s, [(conn, .error "register first")])
    else
      match alGet uname s.clients with
      | none => .error ()
      | some info =>
        match info.room with
        | none => .ok (s, [(conn, .error "not in a room")])
        | some cr =>
          if cr ≠ "" ∧ uname ∈ roomGet s cr then
            let rooms' := alUpdate cr (fun m => m.erase uname) s.rooms
            let clients' := alUpdate uname (fun i => ⟨i.writer, none⟩) s.clients
            .ok (⟨clients', rooms'⟩, [(conn, .roomLeft cr)])
          else .ok (s, [(conn, .error "not in a room")])

/-- `ChatServer.broadcast_room` (lines 223-232) as the list of performed
deliveries: one `(member, writer, payload)` per user iterated, the writer
looked up as `self.clients[user]["writer"]` (a dangling member would be a
`KeyError` there; invariant `memberReg` rules it out, so the `filterMap`
skip branch never fires on reachable states). -/
def broadcast_room (s : ServerState) (room : String) (payload : Frame) :
    List (String × Nat × Frame) :=
  (roomGet s room).filterMap fun u =>
    (alGet u s.clients).map fun i => (u, i.writer, payload)

/-- `ChatServer.handle_send_message` (lines 200-221). -/
def handle_send_message (msgText : Option String) (conn : Nat)
    (username : Option String) (s : ServerState) :
    Except Unit (ServerState × List (Nat × Frame)) :=
  match username with
  | none => .ok (s, [(conn, .error "register first")])
  | some uname =>
    if uname = "" then .ok (s, [(conn, .error "register first")])
    else
      match msgText with
      | none => .ok (s, [(conn, .error "message required")])
      | some text =>
        if text = "" then .ok (s, [(conn, .error "message required")])
        else
          match alGet uname s.clients with
          | none => .error ()
          | some info =>
            match info.room with
            | none => .ok (s, [(conn, .error "join a room first")])
            | some room =>
              if room = "" then .ok (s, [(conn, .error "join a room first")])
              else
                .ok (s, (broadcast_room s room
                          (.chatMessage room uname text)).map
                        fun d => (d.2.1, d.2.2))

/-- `ChatServer.cleanup_client` (lines 245-253). -/
def cleanup_client (username : String) (s : ServerState) : ServerState :=
  match alGet username s.clients with
  | none => s
  | some info =>
    let clients' := alRemove username s.clients
    let rooms' :=
      match info.room with
      | none => s.rooms
      | some r =>
        if r ≠ "" ∧ username ∈ roomGet s r then
          alUpdate r (fun m => m.erase username) s.rooms
        else s.rooms
    ⟨clients', rooms'⟩

/-- One inbound frame as seen by `handle_client`: either a line that fails
`json.loads`, or a decoded message read through `msg.get("action")`,
`msg.get("username")`, `msg.get("room")`, `msg.get("message")`. -/
inductive InFrame where
  | badJson
  | msg (action username room message : Option String)
deriving DecidableEq, Repr

/-- The dispatch part of `ChatServer.handle_client` (lines 60-85): decode
one frame, branch on the action, thread the per-connection `username`
local (only a `register` frame reassigns it).  `.error ()` propagates a
handler `KeyError` to the loop's `except Exception` clause. -/
def dispatch (f : InFrame) (username : Option String) (conn : Nat)
    (s : ServerState) :
    Except Unit (Option String × ServerState × List (Nat × Frame)) :=
  match f with
  | .badJson => .ok (username, s, [(conn, .error "Invalid JSON")])
  | .msg action mu mr mm =>
    if action = some "register" then .ok (handle_register mu conn s)
    else if action = some "list_rooms" then .ok (username, s, handle_list_rooms conn s)
    else if action = some "create_room" then
      let r := handle_create_room mr conn username s
      .ok (username, r.1, r.2)
    else if action = some "join_room" then
      (handle_join_room mr conn username s).map fun r => (username, r.1, r.2)
    else if action = some "leave_room" then
      (handle_leave_room conn username s).map fun r => (username, r.1, r.2)
    else if action = some "send_message" then
      (handle_send_message mm conn username s).map fun r => (username, r.1, r.2)
    else .ok (username, s, [(conn, .error "Unknown action")])

/-- The whole server together with every live connection's `username`
local variable (line 57 of `handle_client`). -/
structure Sys where
  server : ServerState
  conns : List (Nat × Option String)
deriving DecidableEq, Repr

/-- The events driving the system: a connection is accepted, a connection
delivers one inbound frame, or a connection's read loop terminates
(peer closed, stream error or cancellation). -/
inductive Event where
  | connect (conn : Nat)
  | frame (conn : Nat) (f : InFrame)
  | disconnect (conn : Nat)
deriving DecidableEq, Repr

/-- The `finally` clause of `handle_client` (lines 90-95): run
`cleanup_client` when the `username` local is truthy, then the connection
is gone. -/
def endConn (conn : Nat) (u : Option String) (sys : Sys) : Sys :=
  let s' :=
    match u with
    | some uname => if uname ≠ "" then cleanup_client uname sys.server else sys.server
    | none => sys.server
  ⟨s', alRemove conn sys.conns⟩

/-- One cooperative step of the system.  A frame event runs `dispatch` for
the named connection between two suspension points; a handler exception
(`.error`) ends that connection's loop through the `finally` path, exactly
as `except Exception` followed by `finally` does in `handle_client`. -/
def applyEvent (e : Event) (sys : Sys) : Sys :=
  match e with
  | .connect c =>
    match alGet c sys.conns with
    | some _ => sys
    | none => ⟨sys.server, alSet c none sys.conns⟩
  | .frame c f =>
    match alGet c sys.conns with
    | none => sys
    | some u =>
      match dispatch f u c sys.server with
      | .ok (u', s', _) => ⟨s', alSet c u' sys.conns⟩
      | .error _ => endConn c u sys
  | .disconnect c =>
    match alGet c sys.conns with
    | none => sys
    | some u => endConn c u sys

/-- `ChatServer.__init__` (lines 28-37): no clients, the default room
`"general"` with an empty member set, no live connections yet. -/
def initSys : Sys := ⟨⟨[], [("general", [])]⟩, []⟩

/-- The state after a finite sequence of events from the initial state. -/
def runEvents (es : List Event) : Sys :=
  es.foldl (fun sys e => applyEvent e sys) initSys

/-- A state the server can actually be in. -/
def Reachable (sys : Sys) : Prop := ∃ es, runEvents es = sys

/-- The keys of an association list are pairwise distinct (true of every
Python dict). -/
abbrev KeysNodup {α β : Type} (l : List (α × β)) : Prop :=
  (l.map Prod.fst).Nodup

/-- Invariant properties of the two registries alone: key uniqueness, the
default room, pairing between a client record's `room` field and actual
room membership (both directions), and no dangling membership. -/
structure SInv (s : ServerState) : Prop where
  clientsNodup : KeysNodup s.clients
  roomsNodup : KeysNodup s.rooms
  membersNodup : ∀ p ∈ s.rooms, p.2.Nodup
  generalMem : "general" ∈ s.rooms.map Prod.fst
  roomKeyNe : ∀ p ∈ s.rooms, p.1 ≠ ""
  clientKeyNe : ∀ q ∈ s.clients, q.1 ≠ ""
  memberReg : ∀ p ∈ s.rooms, ∀ u ∈ p.2,
    ∃ i, alGet u s.clients = some i ∧ i.room = some p.1
  regMember : ∀ q ∈ s.clients, ∀ r, q.2.room = some r → q.1 ∈ roomGet s r

/-- Invariant of the whole system: the registries are well-formed, the
`username` locals of live connections are distinct and point at live
session records. -/
structure Inv (sys : Sys) : Prop where
  sinv : SInv sys.server
  connsNodup : KeysNodup sys.conns
  connReg : ∀ c u, alGet c sys.conns = some (some u) →
    u ≠ "" ∧ (alGet u sys.server.clients).isSome
  connUniq : ∀ c₁ c₂ u, alGet c₁ sys.conns = some (some u) →
    alGet c₂ sys.conns = some (some u) → c₁ = c₂

/-- Deliveries a broadcast performs when its iteration reads the live
member list at each step.  `broadcast_room` binds `users` to the set
object stored in the registry itself (`users = self.rooms.get(room,
set())`, line 224 of server.py — no copy is taken), so a mutation of that
set performed by another task during the `await writer.drain()` suspension
between two deliveries is visible to the remainder of the iteration.
`k` is the position the iterator has reached, `cur` the list the iterator
currently sees, and `muts` the mutation the environment applies in each
gap between deliveries (fewer mutations than deliveries means the tail of
the iteration runs undisturbed).  In CPython, mutating a `set` during
iteration raises `RuntimeError`; at list granularity the effect modelled
here is that later deliveries are computed from the mutated collection. -/
def aliasedDeliveries : Nat → List String →
    List (List String → List String) → List String
  | k, cur, [] => cur.drop k
  | k, cur, m :: rest =>
    match cur.drop k with
    | [] => []
    | user :: _ => user :: aliasedDeliveries (k + 1) (m cur) rest

/-- Deliveries a copy-before-iterate broadcast performs: the snapshot of
the member set taken before the first delivery, unaffected by membership
mutations that land during the broadcast. -/
def snapshotDeliveries (members : List String)
    (_muts : List (List String → List String)) : List String :=
  members

/-- Modelled from the spec: the Profile B server variant (auto-assigned
identities, envelope protocol, empty-room auto-deletion) is a second
server implementation of this repository that is not present under src/.
Spec §4.2 specifies its membership-removal step — shared by `leaveRoom`
and disconnect cleanup — as: remove the session from the room's member
set, "deleting that room if it becomes empty, non-default, and the active
protocol variant enables auto-deletion"; §8 adds that the default room
under the same condition is not removed. -/
def removeMemberB (defaultRoom room u : String)
    (rooms : List (String × List String)) : List (String × List String) :=
  let rooms' := alUpdate room (fun m => m.erase u) rooms
  match alGet room rooms' with
  | some [] => if room = defaultRoom then rooms' else alRemove room rooms'
  | _ => rooms'

/-! ## Association-list lemmas -/

section AssocLemmas

variable {α β : Type} [DecidableEq α]

theorem alGet_eq_none_iff (k : α) (l : List (α × β)) :
    alGet k l = none ↔ k ∉ l.map Prod.fst := by
  induction l with
  | nil => simp [alGet]
  | cons p l ih =>
    by_cases hp : p.1 = k
    · subst hp
      simp [alGet]
    · have he : alGet k (p :: l) = alGet k l := by simp [alGet, hp]
      rw [he, ih, List.map_cons]
      constructor
      · intro h hm
        rcases List.mem_cons.mp hm with hm | hm
        · exact hp hm.symm
        · exact h hm
      · intro h hm
        exact h (List.mem_cons_of_mem _ hm)

theorem alGet_mem {k : α} {l : List (α × β)} {v : β}
    (h : alGet k l = some v) : (k, v) ∈ l := by
  induction l with
  | nil => simp [alGet] at h
  | cons p l ih =>
    by_cases hp : p.1 = k
    · simp only [alGet, if_pos hp] at h
      have hv : p.2 = v := Option.some.inj h
      have hpe : p = (k, v) := by
        obtain ⟨p1, p2⟩ := p
        simp only at hp hv
        rw [hp, hv]
      rw [← hpe]
      exact List.mem_cons_self _ _
    · simp only [alGet, if_neg hp] at h
      exact List.mem_cons_of_mem _ (ih h)

theorem mem_alGet {k : α} {l : List (α × β)} {v : β}
    (hn : KeysNodup l) (h : (k, v) ∈ l) : alGet k l = some v := by
  induction l with
  | nil => simp at h
  | cons p l ih =>
    rcases List.mem_cons.mp h with h | h
    · rw [← h]
      simp [alGet]
    · have hnc := List.nodup_cons.mp hn
      have hk : p.1 ≠ k := by
        intro he
        exact hnc.1 (he ▸ List.mem_map.mpr ⟨(k, v), h, rfl⟩)
      simp only [alGet, if_neg hk]
      exact ih hnc.2 h

theorem alGet_alSet_self (k : α) (v : β) (l : List (α × β)) :
    alGet k (alSet k v l) = some v := by
  induction l with
  | nil => simp [alSet, alGet]
  | cons p l ih =>
    by_cases hp : p.1 = k
    · simp [alSet, hp, alGet]
    · simp [alSet, hp, alGet, ih]

theorem alGet_alSet_ne {k k' : α} (h : k ≠ k') (v : β) (l : List (α × β)) :
    alGet k (alSet k' v l) = alGet k l := by
  have h1 : ¬ (k' = k) := fun he => h he.symm
  induction l with
  | nil =>
    simp only [alSet, alGet]
    rw [if_neg h1]
  | cons p l ih =>
    by_cases hp : p.1 = k'
    · have h2 : ¬ (p.1 = k) := by rw [hp]; exact h1
      simp only [alSet, if_pos hp, alGet]
      rw [if_neg h1, if_neg h2]
    · simp only [alSet, if_neg hp, alGet]
      by_cases hk : p.1 = k
      · rw [if_pos hk, if_pos hk]
      · rw [if_neg hk, if_neg hk]
        exact ih

theorem mem_alSet {p : α × β} {k : α} {v : β} {l : List (α × β)}
    (h : p ∈ alSet k v l) : p = (k, v) ∨ p ∈ l := by
  induction l with
  | nil => simpa [alSet] using h
  | cons q l ih =>
    by_cases hq : q.1 = k
    · simp only [alSet, hq, if_pos] at h
      rcases List.mem_cons.mp h with h | h
      · exact .inl h
      · exact .inr (List.mem_cons_of_mem _ h)
    · simp only [alSet, hq, if_neg, not_false_iff] at h
      rcases List.mem_cons.mp h with h | h
      · exact .inr (h ▸ List.mem_cons_self _ _)
      · rcases ih h with h | h
        · exact .inl h
        · exact .inr (List.mem_cons_of_mem _ h)

theorem keys_alSet_iff (x k : α) (v : β) (l : List (α × β)) :
    x ∈ (alSet k v l).map Prod.fst ↔ x = k ∨ x ∈ l.map Prod.fst := by
  induction l with
  | nil => simp [alSet, eq_comm]
  | cons p l ih =>
    by_cases hp : p.1 = k
    · subst hp
      simp [alSet, eq_comm]
    · simp only [alSet, hp, if_neg, not_false_iff, List.map_cons, List.mem_cons, ih]
      tauto

theorem nodupKeys_alSet (k : α) (v : β) {l : List (α × β)}
    (h : KeysNodup l) : KeysNodup (alSet k v l) := by
  induction l with
  | nil => simp [KeysNodup, alSet]
  | cons p l ih =>
    have hnc : p.1 ∉ l.map Prod.fst ∧ (l.map Prod.fst).Nodup := by
      simpa [KeysNodup] using List.nodup_cons.mp h
    by_cases hk : p.1 = k
    · subst hk
      have he : alSet p.1 v (p :: l) = (p.1, v) :: l := by simp [alSet]
      rw [he]
      exact List.nodup_cons.mpr hnc
    · have he : alSet k v (p :: l) = p :: alSet k v l := by simp [alSet, hk]
      rw [he]
      refine List.nodup_cons.mpr ⟨?_, ih hnc.2⟩
      intro hmem
      rcases (keys_alSet_iff p.1 k v l).mp hmem with h1 | h1
      · exact hk h1
      · exact hnc.1 h1

theorem keys_alUpdate (k : α) (f : β → β) (l : List (α × β)) :
    (alUpdate k f l).map Prod.fst = l.map Prod.fst := by
  induction l with
  | nil => rfl
  | cons p l ih =>
    by_cases hp : p.1 = k <;> simp [alUpdate, hp] at ih ⊢ <;> exact ih

theorem nodupKeys_alUpdate (k : α) (f : β → β) {l : List (α × β)}
    (h : KeysNodup l) : KeysNodup (alUpdate k f l) := by
  unfold KeysNodup
  rw [keys_alUpdate]
  exact h

theorem alGet_alUpdate (k k' : α) (f : β → β) (l : List (α × β)) :
    alGet k (alUpdate k' f l) =
      if k = k' then (alGet k l).map f else alGet k l := by
  induction l with
  | nil => by_cases h : k = k' <;> simp [alGet, alUpdate, h]
  | cons p l ih =>
    by_cases hp : p.1 = k'
    · by_cases hk : p.1 = k
      · have : k = k' := hk ▸ hp
        simp [alUpdate, alGet, hp, hk, this]
      · simp only [alUpdate, List.map_cons, if_pos hp, alGet, hk, if_neg, not_false_iff] at ih ⊢
        simpa [alUpdate] using ih
    · by_cases hk : p.1 = k
      · have : ¬ k = k' := fun h => hp (hk.symm ▸ h)
        simp [alUpdate, alGet, hp, hk, this]
      · simp only [alUpdate, List.map_cons, if_neg hp, alGet, hk, if_neg, not_false_iff] at ih ⊢
        simpa [alUpdate] using ih

theorem mem_alRemove {p : α × β} {k : α} {l : List (α × β)}
    (h : p ∈ alRemove k l) : p ∈ l := by
  induction l with
  | nil => simp [alRemove] at h
  | cons q l ih =>
    by_cases hq : q.1 = k
    · simp only [alRemove, hq, if_pos] at h
      exact List.mem_cons_of_mem _ h
    · simp only [alRemove, hq, if_neg, not_false_iff] at h
      rcases List.mem_cons.mp h with h | h
      · exact h ▸ List.mem_cons_self _ _
      · exact List.mem_cons_of_mem _ (ih h)

theorem keys_alRemove_subset {x k : α} {l : List (α × β)}
    (h : x ∈ (alRemove k l).map Prod.fst) : x ∈ l.map Prod.fst := by
  rcases List.mem_map.mp h with ⟨p, hp, he⟩
  exact List.mem_map.mpr ⟨p, mem_alRemove hp, he⟩

theorem nodupKeys_alRemove (k : α) {l : List (α × β)}
    (h : KeysNodup l) : KeysNodup (alRemove k l) := by
  induction l with
  | nil => simp [KeysNodup, alRemove]
  | cons p l ih =>
    rcases List.nodup_cons.mp h with ⟨hp, hl⟩
    by_cases hq : p.1 = k
    · simpa [KeysNodup, alRemove, hq] using hl
    · unfold KeysNodup at *
      simp only [alRemove, hq, if_neg, not_false_iff, List.map_cons]
      exact List.nodup_cons.mpr ⟨fun hmem => hp (keys_alRemove_subset hmem), ih hl⟩

theorem alGet_alRemove_self (k : α) {l : List (α × β)} (h : KeysNodup l) :
    alGet k (alRemove k l) = none := by
  induction l with
  | nil => simp [alRemove, alGet]
  | cons p l ih =>
    have hnc : p.1 ∉ l.map Prod.fst ∧ (l.map Prod.fst).Nodup := by
      simpa [KeysNodup] using List.nodup_cons.mp h
    by_cases hp : p.1 = k
    · have he : alRemove k (p :: l) = l := by simp [alRemove, hp]
      rw [he, alGet_eq_none_iff]
      exact hp ▸ hnc.1
    · have he : alRemove k (p :: l) = p :: alRemove k l := by simp [alRemove, hp]
      rw [he]
      simp only [alGet, if_neg hp]
      exact ih hnc.2

theorem alGet_alRemove_ne {k k' : α} (h : k ≠ k') (l : List (α × β)) :
    alGet k (alRemove k' l) = alGet k l := by
  induction l with
  | nil => simp [alRemove]
  | cons p l ih =>
    by_cases hp : p.1 = k'
    · have h2 : ¬ (p.1 = k) := by rw [hp]; exact fun he => h he.symm
      have he : alRemove k' (p :: l) = l := by simp [alRemove, hp]
      rw [he]
      simp only [alGet, if_neg h2]
    · have he : alRemove k' (p :: l) = p :: alRemove k' l := by simp [alRemove, hp]
      rw [he]
      simp only [alGet]
      by_cases hk : p.1 = k
      · rw [if_pos hk, if_pos hk]
      · rw [if_neg hk, if_neg hk]
        exact ih

theorem mem_alRemove_of_nodup {p : α × β} {k : α} {l : List (α × β)}
    (hn : KeysNodup l) (h : p ∈ alRemove k l) : p ∈ l ∧ p.1 ≠ k := by
  refine ⟨mem_alRemove h, ?_⟩
  intro he
  have : alGet p.1 (alRemove k l) = some p.2 :=
    mem_alGet (nodupKeys_alRemove k hn) h
  rw [he, alGet_alRemove_self k hn] at this
  exact Option.noConfusion this

end AssocLemmas

/-! ## Member-set and room lemmas -/

theorem mem_setAdd {x u : String} {l : List String} :
    x ∈ setAdd u l ↔ x = u ∨ x ∈ l := by
  unfold setAdd
  by_cases h : u ∈ l
  · simp only [if_pos h]
    constructor
    · exact .inr
    · rintro (rfl | hx)
      · exact h
      · exact hx
  · simp [if_neg h, List.mem_append, or_comm]

theorem nodup_setAdd (u : String) {l : List String} (h : l.Nodup) :
    (setAdd u l).Nodup := by
  unfold setAdd
  by_cases hm : u ∈ l
  · simpa [if_pos hm] using h
  · simp only [if_neg hm]
    simpa [List.nodup_append] using ⟨h, hm⟩

theorem mem_roomGet {s : ServerState} {r : String} {x : String} :
    x ∈ roomGet s r ↔ ∃ m, alGet r s.rooms = some m ∧ x ∈ m := by
  unfold roomGet
  cases h : alGet r s.rooms with
  | none => simp
  | some m => simp

/-! ## The reachability invariant -/

theorem sinv_init : SInv initSys.server := by
  constructor <;> simp [initSys, KeysNodup, roomGet, alGet]

theorem inv_init : Inv initSys := by
  refine ⟨sinv_init, ?_, ?_, ?_⟩ <;> simp [initSys, KeysNodup, alGet]

/-! ### Consequences of the invariant -/

theorem sinv_roomGet_reg {s : ServerState} (h : SInv s) {r u : String}
    (hu : u ∈ roomGet s r) :
    ∃ i, alGet u s.clients = some i ∧ i.room = some r := by
  rcases mem_roomGet.mp hu with ⟨m, hm, hum⟩
  exact h.memberReg (r, m) (alGet_mem hm) u hum

/-- A registered user's membership is determined by their record's `room`
field: membership in any room pins that field. -/
theorem sinv_mem_room_field {s : ServerState} (h : SInv s) {u : String}
    {info : ClientInfo} (hget : alGet u s.clients = some info)
    {p : String × List String} (hp : p ∈ s.rooms) (hu : u ∈ p.2) :
    info.room = some p.1 := by
  rcases h.memberReg p hp u hu with ⟨i, hgi, hri⟩
  rw [hget] at hgi
  cases Option.some.inj hgi
  exact hri

theorem sinv_key_ne {s : ServerState} (h : SInv s) {x : String}
    (hx : x ∈ s.rooms.map Prod.fst) : x ≠ "" := by
  rcases List.mem_map.mp hx with ⟨p, hp, he⟩
  exact he ▸ h.roomKeyNe p hp

theorem sinv_general_get {s : ServerState} (h : SInv s) :
    ∃ m, alGet "general" s.rooms = some m := by
  cases hg : alGet "general" s.rooms with
  | none => exact absurd h.generalMem ((alGet_eq_none_iff _ _).mp hg)
  | some m => exact ⟨m, rfl⟩

theorem isSome_alGet_alUpdate {α β : Type} [DecidableEq α]
    (k k' : α) (f : β → β) (l : List (α × β)) :
    (alGet k (alUpdate k' f l)).isSome = (alGet k l).isSome := by
  rw [alGet_alUpdate]
  split
  · cases alGet k l <;> rfl
  · rfl

/-! ### Preservation of the registry invariant by each operation -/

/-- `handle_register` either replies with an error and leaves everything
unchanged, or registers a fresh nonempty name into the default room. -/
theorem handle_register_cases (mu : Option String) (c : Nat) (s : ServerState) :
    (∃ m, handle_register mu c s = (none, s, [(c, .error m)])) ∨
    (∃ u, mu = some u ∧ u ≠ "" ∧ alGet u s.clients = none ∧
      handle_register mu c s =
        (some u,
         ⟨alSet u ⟨c, some "general"⟩ s.clients,
          alUpdate "general" (setAdd u) s.rooms⟩,
         [(c, .info ("Registered as " ++ u) (some "general"))])) := by
  cases mu with
  | none => exact .inl ⟨"username required", rfl⟩
  | some u =>
    by_cases hu : u = ""
    · refine .inl ⟨"username required", ?_⟩
      simp only [handle_register, if_pos hu]
    · cases hfree : alGet u s.clients with
      | some i =>
        refine .inl ⟨"username already taken", ?_⟩
        simp only [handle_register, if_neg hu, hfree, Option.isSome_some, if_pos]
      | none =>
        refine .inr ⟨u, rfl, hu, hfree, ?_⟩
        simp only [handle_register, if_neg hu, hfree, Option.isSome_none,
          Bool.false_eq_true, if_neg, not_false_iff]

theorem sinv_register_success {s : ServerState} (h : SInv s) {u : String} {c : Nat}
    (hu : u ≠ "") (hfree : alGet u s.clients = none) :
    SInv ⟨alSet u ⟨c, some "general"⟩ s.clients,
          alUpdate "general" (setAdd u) s.rooms⟩ := by
  constructor
  · exact nodupKeys_alSet _ _ h.clientsNodup
  · exact nodupKeys_alUpdate _ _ h.roomsNodup
  · intro p hp
    rcases List.mem_map.mp hp with ⟨q, hq, he⟩
    by_cases hg : q.1 = "general"
    · rw [if_pos hg] at he
      rw [← he]
      exact nodup_setAdd u (h.membersNodup q hq)
    · rw [if_neg hg] at he
      exact he ▸ h.membersNodup q hq
  · rw [keys_alUpdate]
    exact h.generalMem
  · intro p hp
    rcases List.mem_map.mp hp with ⟨q, hq, he⟩
    have hk : p.1 = q.1 := by
      rw [← he]
      by_cases hg : q.1 = "general" <;> simp [hg]
    exact hk ▸ h.roomKeyNe q hq
  · intro q hq
    rcases mem_alSet hq with he | hmem
    · rw [he]
      exact hu
    · exact h.clientKeyNe q hmem
  · intro p hp x hx
    rcases List.mem_map.mp hp with ⟨q, hq, he⟩
    by_cases hg : q.1 = "general"
    · rw [if_pos hg] at he
      rw [← he] at hx ⊢
      rcases mem_setAdd.mp hx with hxu | hxq
      · subst hxu
        refine ⟨⟨c, some "general"⟩, alGet_alSet_self _ _ _, ?_⟩
        simpa using hg.symm
      · rcases h.memberReg q hq x hxq with ⟨i, hgi, hri⟩
        have hxne : x ≠ u := fun hxe => by rw [hxe, hfree] at hgi; cases hgi
        exact ⟨i, (alGet_alSet_ne hxne _ _).trans hgi, hri⟩
    · rw [if_neg hg] at he
      rw [← he] at hx ⊢
      rcases h.memberReg q hq x hx with ⟨i, hgi, hri⟩
      have hxne : x ≠ u := fun hxe => by rw [hxe, hfree] at hgi; cases hgi
      exact ⟨i, (alGet_alSet_ne hxne _ _).trans hgi, hri⟩
  · intro q hq r hr
    rcases sinv_general_get h with ⟨mg, hmg⟩
    rcases mem_alSet hq with he | hmem
    · rw [he] at hr ⊢
      have hre : r = "general" := (Option.some.inj hr).symm
      subst hre
      show (u : String) ∈ (alGet "general" (alUpdate "general" (setAdd u) s.rooms)).getD []
      rw [alGet_alUpdate, if_pos rfl, hmg]
      exact mem_setAdd.mpr (.inl rfl)
    · have hold := h.regMember q hmem r hr
      rcases mem_roomGet.mp hold with ⟨m, hm, hqm⟩
      show q.1 ∈ (alGet r (alUpdate "general" (setAdd u) s.rooms)).getD []
      rw [alGet_alUpdate]
      by_cases hrg : r = "general"
      · subst hrg
        rw [if_pos rfl, hm]
        exact mem_setAdd.mpr (.inr hqm)
      · rw [if_neg hrg, hm]
        exact hqm

/-- `handle_create_room` either errors (state unchanged) or appends a
fresh empty room. -/
theorem handle_create_room_cases (mr : Option String) (c : Nat)
    (u : Option String) (s : ServerState) :
    (∃ m, handle_create_room mr c u s = (s, [(c, .error m)])) ∨
    (∃ r, mr = some r ∧ r ≠ "" ∧ alGet r s.rooms = none ∧
      handle_create_room mr c u s =
        (⟨s.clients, alSet r [] s.rooms⟩,
         [(c, .info ("Room \x27" ++ r ++ "\x27 created") none),
          (c, .roomList (listRoomNames ⟨s.clients, alSet r [] s.rooms⟩))])) := by
  by_cases ht : truthy u = false
  · refine .inl ⟨"register first", ?_⟩
    simp only [handle_create_room, if_pos ht]
  · cases mr with
    | none =>
      refine .inl ⟨"room name required", ?_⟩
      simp only [handle_create_room, if_neg ht]
    | some r =>
      by_cases hr : r = ""
      · refine .inl ⟨"room name required", ?_⟩
        simp only [handle_create_room, if_neg ht, if_pos hr]
      · cases hfree : alGet r s.rooms with
        | some m =>
          refine .inl ⟨"room already exists", ?_⟩
          simp only [handle_create_room, if_neg ht, if_neg hr, hfree,
            Option.isSome_some, if_pos]
        | none =>
          refine .inr ⟨r, rfl, hr, hfree, ?_⟩
          simp only [handle_create_room, if_neg ht, if_neg hr, hfree,
            Option.isSome_none, Bool.false_eq_true, if_neg, not_false_iff]

theorem sinv_create_success {s : ServerState} (h : SInv s) {r : String}
    (hr : r ≠ "") (hfree : alGet r s.rooms = none) :
    SInv ⟨s.clients, alSet r [] s.rooms⟩ := by
  constructor
  · exact h.clientsNodup
  · exact nodupKeys_alSet _ _ h.roomsNodup
  · intro p hp
    rcases mem_alSet hp with he | hmem
    · rw [he]
      exact List.nodup_nil
    · exact h.membersNodup p hmem
  · exact (keys_alSet_iff _ _ _ _).mpr (.inr h.generalMem)
  · intro p hp
    rcases mem_alSet hp with he | hmem
    · rw [he]
      exact hr
    · exact h.roomKeyNe p hmem
  · exact h.clientKeyNe
  · intro p hp x hx
    rcases mem_alSet hp with he | hmem
    · rw [he] at hx
      cases hx
    · exact h.memberReg p hmem x hx
  · intro q hq r' hr'
    have hold := h.regMember q hq r' hr'
    rcases mem_roomGet.mp hold with ⟨m, hm, hqm⟩
    have hne : r' ≠ r := fun he => by rw [he, hfree] at hm; cases hm
    show q.1 ∈ (alGet r' (alSet r [] s.rooms)).getD []
    rw [alGet_alSet_ne hne, hm]
    exact hqm

/-- Shape of the room registry after the "leave the old room" step shared
by `handle_join_room` (lines 167-170) and `cleanup_client` (lines 250-252):
keys are unchanged, member sets stay duplicate-free, the acting user is a
member of no room afterwards, and every other user's membership is
untouched. -/
theorem sinv_removed {s : ServerState} (h : SInv s) {uname : String}
    {info : ClientInfo} (hget : alGet uname s.clients = some info)
    {rooms1 : List (String × List String)}
    (hdef : rooms1 = match info.room with
      | none => s.rooms
      | some cr =>
        if cr ≠ "" ∧ uname ∈ roomGet s cr then
          alUpdate cr (fun m => m.erase uname) s.rooms
        else s.rooms) :
    rooms1.map Prod.fst = s.rooms.map Prod.fst ∧
    (∀ q ∈ rooms1, q.2.Nodup) ∧
    (∀ q ∈ rooms1, uname ∉ q.2) ∧
    (∀ x r', x ≠ uname →
      (x ∈ (alGet r' rooms1).getD [] ↔ x ∈ roomGet s r')) := by
  have hnoop : ∀ (hno : ∀ q ∈ s.rooms, uname ∉ q.2), rooms1 = s.rooms →
      rooms1.map Prod.fst = s.rooms.map Prod.fst ∧
      (∀ q ∈ rooms1, q.2.Nodup) ∧
      (∀ q ∈ rooms1, uname ∉ q.2) ∧
      (∀ x r', x ≠ uname →
        (x ∈ (alGet r' rooms1).getD [] ↔ x ∈ roomGet s r')) := by
    intro hno he
    subst he
    exact ⟨rfl, h.membersNodup, hno, fun x r' _ => Iff.rfl⟩
  rcases hroom : info.room with _ | cr
  · have he : rooms1 = s.rooms := by rw [hdef, hroom]
    refine hnoop ?_ he
    intro q hq hmem
    have := sinv_mem_room_field h hget hq hmem
    rw [hroom] at this
    cases this
  · have hdef' : rooms1 =
        if cr ≠ "" ∧ uname ∈ roomGet s cr then
          alUpdate cr (fun m => m.erase uname) s.rooms
        else s.rooms := by rw [hdef, hroom]
    by_cases hcond : cr ≠ "" ∧ uname ∈ roomGet s cr
    · rw [if_pos hcond] at hdef'
      subst hdef'
      refine ⟨keys_alUpdate _ _ _, ?_, ?_, ?_⟩
      · intro q hq
        rcases List.mem_map.mp hq with ⟨q0, hq0, he⟩
        by_cases hc : q0.1 = cr
        · rw [if_pos hc] at he
          rw [← he]
          exact (h.membersNodup q0 hq0).erase uname
        · rw [if_neg hc] at he
          exact he ▸ h.membersNodup q0 hq0
      · intro q hq hmem
        rcases List.mem_map.mp hq with ⟨q0, hq0, he⟩
        by_cases hc : q0.1 = cr
        · rw [if_pos hc] at he
          rw [← he] at hmem
          exact (h.membersNodup q0 hq0).not_mem_erase hmem
        · rw [if_neg hc] at he
          rw [← he] at hmem
          have := sinv_mem_room_field h hget hq0 hmem
          rw [hroom] at this
          exact hc (Option.some.inj this).symm
      · intro x r' hx
        rw [alGet_alUpdate]
        by_cases hc : r' = cr
        · subst hc
          rw [if_pos rfl]
          rcases mem_roomGet.mp hcond.2 with ⟨m, hm, _⟩
          rw [hm]
          have hmn : m.Nodup := h.membersNodup (r', m) (alGet_mem hm)
          show x ∈ m.erase uname ↔ x ∈ roomGet s r'
          rw [hmn.mem_erase_iff]
          unfold roomGet
          rw [hm]
          simp [hx]
        · rw [if_neg hc]
          exact Iff.rfl
    · rw [if_neg hcond] at hdef'
      refine hnoop ?_ hdef'
      intro q hq hmem
      have hf := sinv_mem_room_field h hget hq hmem
      rw [hroom] at hf
      have hqcr : q.1 = cr := (Option.some.inj hf).symm
      refine hcond ⟨hqcr ▸ h.roomKeyNe q hq, ?_⟩
      refine mem_roomGet.mpr ⟨q.2, ?_, hmem⟩
      rw [← hqcr]
      exact mem_alGet h.roomsNodup hq

/-- `handle_join_room` either replies with an error leaving the state
unchanged, raises (`KeyError`), or moves the user into the target room. -/
theorem handle_join_room_cases (mr : Option String) (conn : Nat)
    (u : Option String) (s : ServerState) :
    (∃ m, handle_join_room mr conn u s = .ok (s, [(conn, .error m)])) ∨
    handle_join_room mr conn u s = .error () ∨
    (∃ uname r info, u = some uname ∧ uname ≠ "" ∧ mr = some r ∧ r ≠ "" ∧
      (alGet r s.rooms).isSome = true ∧ alGet uname s.clients = some info ∧
      handle_join_room mr conn u s =
        .ok (⟨alUpdate uname (fun i => ⟨i.writer, some r⟩) s.clients,
              alUpdate r (setAdd uname)
                (match info.room with
                 | none => s.rooms
                 | some cr =>
                   if cr ≠ "" ∧ uname ∈ roomGet s cr then
                     alUpdate cr (fun m => m.erase uname) s.rooms
                   else s.rooms)⟩,
             [(conn, .roomJoined r)])) := by
  cases u with
  | none => exact .inl ⟨"register first", rfl⟩
  | some uname =>
    by_cases hu : uname = ""
    · refine .inl ⟨"register first", ?_⟩
      simp only [handle_join_room, if_pos hu]
    · cases mr with
      | none =>
        refine .inl ⟨"room name required", ?_⟩
        simp only [handle_join_room, if_neg hu]
      | some r =>
        by_cases hr : r = ""
        · refine .inl ⟨"room name required", ?_⟩
          simp only [handle_join_room, if_neg hu, if_pos hr]
        · cases hrex : (alGet r s.rooms).isSome with
          | false =>
            refine .inl ⟨"room does not exist", ?_⟩
            simp only [handle_join_room, if_neg hu, if_neg hr, hrex, if_pos]
          | true =>
            cases hget : alGet uname s.clients with
            | none =>
              refine .inr (.inl ?_)
              simp only [handle_join_room, if_neg hu, if_neg hr, hrex,
                Bool.true_eq_false, if_neg, not_false_iff, hget]
            | some info =>
              refine .inr (.inr ⟨uname, r, info, rfl, hu, rfl, hr, hrex, hget, ?_⟩)
              simp only [handle_join_room, if_neg hu, if_neg hr, hrex,
                Bool.true_eq_false, if_neg, not_false_iff, hget]

theorem sinv_join_success {s : ServerState} (h : SInv s) {uname r : String}
    {info : ClientInfo} (hget : alGet uname s.clients = some info)
    (hrex : (alGet r s.rooms).isSome = true)
    {rooms1 : List (String × List String)}
    (hdef : rooms1 = match info.room with
      | none => s.rooms
      | some cr =>
        if cr ≠ "" ∧ uname ∈ roomGet s cr then
          alUpdate cr (fun m => m.erase uname) s.rooms
        else s.rooms) :
    SInv ⟨alUpdate uname (fun i => ⟨i.writer, some r⟩) s.clients,
          alUpdate r (setAdd uname) rooms1⟩ := by
  obtain ⟨hkeys, hnodup, hgone, hpres⟩ := sinv_removed h hget hdef
  have hkeysnd : KeysNodup rooms1 := by
    unfold KeysNodup
    rw [hkeys]
    exact h.roomsNodup
  have hrex1 : ∃ m1, alGet r rooms1 = some m1 := by
    cases hg : alGet r rooms1 with
    | some m1 => exact ⟨m1, rfl⟩
    | none =>
      exfalso
      have hnone := (alGet_eq_none_iff r rooms1).mp hg
      rw [hkeys] at hnone
      cases hg2 : alGet r s.rooms with
      | none => rw [hg2] at hrex; cases hrex
      | some m => exact hnone (List.mem_map.mpr ⟨(r, m), alGet_mem hg2, rfl⟩)
  constructor <;> dsimp only
  · exact nodupKeys_alUpdate _ _ h.clientsNodup
  · exact nodupKeys_alUpdate _ _ hkeysnd
  · intro p hp
    rcases List.mem_map.mp hp with ⟨q, hq, he⟩
    by_cases hc : q.1 = r
    · rw [if_pos hc] at he
      rw [← he]
      exact nodup_setAdd uname (hnodup q hq)
    · rw [if_neg hc] at he
      exact he ▸ hnodup q hq
  · rw [keys_alUpdate, hkeys]
    exact h.generalMem
  · intro p hp
    have hkp : p.1 ∈ s.rooms.map Prod.fst := by
      rw [← hkeys, ← keys_alUpdate r (setAdd uname) rooms1]
      exact List.mem_map.mpr ⟨p, hp, rfl⟩
    exact sinv_key_ne h hkp
  · intro q hq
    rcases List.mem_map.mp hq with ⟨q0, hq0, he⟩
    have : q.1 = q0.1 := by
      rw [← he]
      by_cases hc : q0.1 = uname <;> simp [hc]
    exact this ▸ h.clientKeyNe q0 hq0
  · intro p hp x hx
    rcases List.mem_map.mp hp with ⟨q, hq, he⟩
    have hxcases : (p.1 = q.1) ∧ (x ∈ setAdd uname q.2 ∧ q.1 = r ∨ x ∈ q.2) := by
      by_cases hc : q.1 = r
      · rw [if_pos hc] at he
        rw [← he] at hx ⊢
        exact ⟨rfl, .inl ⟨hx, hc⟩⟩
      · rw [if_neg hc] at he
        rw [← he] at hx ⊢
        exact ⟨rfl, .inr hx⟩
    obtain ⟨hp1, hxc⟩ := hxcases
    have hother : x ∈ q.2 → x ≠ uname ∧
        ∃ i, alGet x s.clients = some i ∧ i.room = some q.1 := by
      intro hxq
      have hxne : x ≠ uname := fun hxe => hgone q hq (hxe ▸ hxq)
      have hmem1 : x ∈ (alGet q.1 rooms1).getD [] := by
        rw [mem_alGet hkeysnd hq]
        exact hxq
      have hmem0 : x ∈ roomGet s q.1 := (hpres x q.1 hxne).mp hmem1
      exact ⟨hxne, sinv_roomGet_reg h hmem0⟩
    rcases hxc with ⟨hxadd, hqr⟩ | hxq
    · rcases mem_setAdd.mp hxadd with hxu | hxq
      · subst hxu
        refine ⟨⟨info.writer, some r⟩, ?_, ?_⟩
        · rw [alGet_alUpdate, if_pos rfl, hget]
          rfl
        · rw [hp1, hqr]
      · rcases hother hxq with ⟨hxne, i, hgi, hri⟩
        refine ⟨i, ?_, hp1 ▸ hri⟩
        rw [alGet_alUpdate, if_neg hxne, hgi]
    · rcases hother hxq with ⟨hxne, i, hgi, hri⟩
      refine ⟨i, ?_, hp1 ▸ hri⟩
      rw [alGet_alUpdate, if_neg hxne, hgi]
  · intro q hq r' hr'
    rcases List.mem_map.mp hq with ⟨q0, hq0, he⟩
    rcases hrex1 with ⟨m1, hm1⟩
    by_cases hc : q0.1 = uname
    · rw [if_pos hc] at he
      rw [← he] at hr' ⊢
      have hre : r' = r := (Option.some.inj hr').symm
      subst hre
      show q0.1 ∈ (alGet r' (alUpdate r' (setAdd uname) rooms1)).getD []
      rw [alGet_alUpdate, if_pos rfl, hm1]
      rw [hc]
      exact mem_setAdd.mpr (.inl rfl)
    · rw [if_neg hc] at he
      rw [← he] at hr' ⊢
      have hold := h.regMember q0 hq0 r' hr'
      have hin1 : q0.1 ∈ (alGet r' rooms1).getD [] := (hpres q0.1 r' hc).mpr hold
      show q0.1 ∈ (alGet r' (alUpdate r (setAdd uname) rooms1)).getD []
      rw [alGet_alUpdate]
      by_cases hrr : r' = r
      · subst hrr
        rw [if_pos rfl, hm1]
        rw [hm1] at hin1
        exact mem_setAdd.mpr (.inr hin1)
      · rw [if_neg hrr]
        exact hin1

/-- `handle_leave_room` either replies with an error leaving the state
unchanged, raises (`KeyError`), or removes the user from its room and
clears the record's `room` field. -/
theorem handle_leave_room_cases (conn : Nat) (u : Option String) (s : ServerState) :
    (∃ m, handle_leave_room conn u s = .ok (s, [(conn, .error m)])) ∨
    handle_leave_room conn u s = .error () ∨
    (∃ uname info cr, u = some uname ∧ uname ≠ "" ∧
      alGet uname s.clients = some info ∧ info.room = some cr ∧
      cr ≠ "" ∧ uname ∈ roomGet s cr ∧
      handle_leave_room conn u s =
        .ok (⟨alUpdate uname (fun i => ⟨i.writer, none⟩) s.clients,
              alUpdate cr (fun m => m.erase uname) s.rooms⟩,
             [(conn, .roomLeft cr)])) := by
  cases u with
  | none => exact .inl ⟨"register first", rfl⟩
  | some uname =>
    by_cases hu : uname = ""
    · refine .inl ⟨"register first", ?_⟩
      simp only [handle_leave_room, if_pos hu]
    · cases hget : alGet uname s.clients with
      | none =>
        refine .inr (.inl ?_)
        simp only [handle_leave_room, if_neg hu, hget]
      | some info =>
        cases hroom : info.room with
        | none =>
          refine .inl ⟨"not in a room", ?_⟩
          simp only [handle_leave_room, if_neg hu, hget, hroom]
        | some cr =>
          by_cases hcond : cr ≠ "" ∧ uname ∈ roomGet s cr
          · refine .inr (.inr ⟨uname, info, cr, rfl, hu, hget, hroom, hcond.1,
              hcond.2, ?_⟩)
            simp only [handle_leave_room, if_neg hu, hget, hroom, if_pos hcond]
          · refine .inl ⟨"not in a room", ?_⟩
            simp only [handle_leave_room, if_neg hu, hget, hroom, if_neg hcond]

theorem sinv_leave_success {s : ServerState} (h : SInv s) {uname cr : String}
    {info : ClientInfo} (hget : alGet uname s.clients = some info)
    (hroom : info.room = some cr) (hcr : cr ≠ "") (hmem : uname ∈ roomGet s cr) :
    SInv ⟨alUpdate uname (fun i => ⟨i.writer, none⟩) s.clients,
          alUpdate cr (fun m => m.erase uname) s.rooms⟩ := by
  have hdef : alUpdate cr (fun m => m.erase uname) s.rooms =
      match info.room with
      | none => s.rooms
      | some cr =>
        if cr ≠ "" ∧ uname ∈ roomGet s cr then
          alUpdate cr (fun m => m.erase uname) s.rooms
        else s.rooms := by
    rw [hroom]
    exact (if_pos ⟨hcr, hmem⟩).symm
  obtain ⟨hkeys, hnodup, hgone, hpres⟩ := sinv_removed h hget hdef
  have hkeysnd : KeysNodup (alUpdate cr (fun m => m.erase uname) s.rooms) := by
    unfold KeysNodup
    rw [hkeys]
    exact h.roomsNodup
  constructor <;> dsimp only
  · exact nodupKeys_alUpdate _ _ h.clientsNodup
  · exact hkeysnd
  · exact hnodup
  · rw [hkeys]
    exact h.generalMem
  · intro p hp
    refine sinv_key_ne h ?_
    rw [← hkeys]
    exact List.mem_map.mpr ⟨p, hp, rfl⟩
  · intro q hq
    rcases List.mem_map.mp hq with ⟨q0, hq0, he⟩
    have hk : q.1 = q0.1 := by
      rw [← he]
      by_cases hc : q0.1 = uname <;> simp [hc]
    exact hk ▸ h.clientKeyNe q0 hq0
  · intro p hp x hx
    have hxne : x ≠ uname := fun hxe => hgone p hp (hxe ▸ hx)
    have hin : x ∈ (alGet p.1 (alUpdate cr (fun m => m.erase uname) s.rooms)).getD [] := by
      rw [mem_alGet hkeysnd hp]
      exact hx
    rcases sinv_roomGet_reg h ((hpres x p.1 hxne).mp hin) with ⟨i, hgi, hri⟩
    refine ⟨i, ?_, hri⟩
    rw [alGet_alUpdate, if_neg hxne, hgi]
  · intro q hq r' hr'
    rcases List.mem_map.mp hq with ⟨q0, hq0, he⟩
    by_cases hc : q0.1 = uname
    · rw [if_pos hc] at he
      rw [← he] at hr'
      cases hr'
    · rw [if_neg hc] at he
      rw [← he] at hr' ⊢
      have hold := h.regMember q0 hq0 r' hr'
      exact (hpres q0.1 r' hc).mpr hold

/-- Every `.ok` outcome of `handle_send_message` leaves the registries
unchanged (broadcasting only writes frames). -/
theorem handle_send_message_state (mm : Option String) (conn : Nat)
    (u : Option String) (s : ServerState) :
    (∃ out, handle_send_message mm conn u s = .ok (s, out)) ∨
    handle_send_message mm conn u s = .error () := by
  cases u with
  | none => exact .inl ⟨_, rfl⟩
  | some uname =>
    by_cases hu : uname = ""
    · refine .inl ⟨[(conn, .error "register first")], ?_⟩
      simp only [handle_send_message, if_pos hu]
    · cases mm with
      | none =>
        refine .inl ⟨[(conn, .error "message required")], ?_⟩
        simp only [handle_send_message, if_neg hu]
      | some text =>
        by_cases htx : text = ""
        · refine .inl ⟨[(conn, .error "message required")], ?_⟩
          simp only [handle_send_message, if_neg hu, if_pos htx]
        · cases hget : alGet uname s.clients with
          | none =>
            refine .inr ?_
            simp only [handle_send_message, if_neg hu, if_neg htx, hget]
          | some info =>
            cases hroom : info.room with
            | none =>
              refine .inl ⟨[(conn, .error "join a room first")], ?_⟩
              simp only [handle_send_message, if_neg hu, if_neg htx, hget, hroom]
            | some room =>
              by_cases hrm : room = ""
              · refine .inl ⟨[(conn, .error "join a room first")], ?_⟩
                simp only [handle_send_message, if_neg hu, if_neg htx, hget,
                  hroom, if_pos hrm]
              · refine .inl ⟨(broadcast_room s room
                    (.chatMessage room uname text)).map
                    (fun d => (d.2.1, d.2.2)), ?_⟩
                simp only [handle_send_message, if_neg hu, if_neg htx, hget,
                  hroom, if_neg hrm]

/-- `cleanup_client` preserves the registry invariant, deletes the session
record, removes the user from every room, and touches no other record. -/
theorem sinv_cleanup (u : String) {s : ServerState} (h : SInv s) :
    SInv (cleanup_client u s) ∧
    alGet u (cleanup_client u s).clients = none ∧
    (∀ p ∈ (cleanup_client u s).rooms, u ∉ p.2) ∧
    (∀ x, x ≠ u → alGet x (cleanup_client u s).clients = alGet x s.clients) := by
  cases hget : alGet u s.clients with
  | none =>
    have hc : cleanup_client u s = s := by
      simp only [cleanup_client, hget]
    rw [hc]
    refine ⟨h, hget, ?_, fun x _ => rfl⟩
    intro p hp hmem
    rcases h.memberReg p hp u hmem with ⟨i, hgi, _⟩
    rw [hget] at hgi
    cases hgi
  | some info =>
    have hc : cleanup_client u s =
        ⟨alRemove u s.clients,
         match info.room with
         | none => s.rooms
         | some r =>
           if r ≠ "" ∧ u ∈ roomGet s r then
             alUpdate r (fun m => m.erase u) s.rooms
           else s.rooms⟩ := by
      simp only [cleanup_client, hget]
    obtain ⟨hkeys, hnodup, hgone, hpres⟩ := sinv_removed h hget rfl
    rw [hc]
    have hkeysnd : KeysNodup (match info.room with
        | none => s.rooms
        | some r =>
          if r ≠ "" ∧ u ∈ roomGet s r then
            alUpdate r (fun m => m.erase u) s.rooms
          else s.rooms) := by
      unfold KeysNodup
      rw [hkeys]
      exact h.roomsNodup
    refine ⟨?_, ?_, hgone, ?_⟩
    · constructor <;> dsimp only
      · exact nodupKeys_alRemove _ h.clientsNodup
      · exact hkeysnd
      · exact hnodup
      · rw [hkeys]
        exact h.generalMem
      · intro p hp
        refine sinv_key_ne h ?_
        rw [← hkeys]
        exact List.mem_map.mpr ⟨p, hp, rfl⟩
      · intro q hq
        exact h.clientKeyNe q (mem_alRemove hq)
      · intro p hp x hx
        have hxne : x ≠ u := fun hxe => hgone p hp (hxe ▸ hx)
        have hin : x ∈ (alGet p.1 (match info.room with
            | none => s.rooms
            | some r =>
              if r ≠ "" ∧ u ∈ roomGet s r then
                alUpdate r (fun m => m.erase u) s.rooms
              else s.rooms)).getD [] := by
          rw [mem_alGet hkeysnd hp]
          exact hx
        rcases sinv_roomGet_reg h ((hpres x p.1 hxne).mp hin) with ⟨i, hgi, hri⟩
        refine ⟨i, ?_, hri⟩
        rw [alGet_alRemove_ne hxne]
        exact hgi
      · intro q hq r' hr'
        obtain ⟨hq0, hqne⟩ := mem_alRemove_of_nodup h.clientsNodup hq
        have hold := h.regMember q hq0 r' hr'
        exact (hpres q.1 r' hqne).mpr hold
    · exact alGet_alRemove_self u h.clientsNodup
    · intro x hx
      exact alGet_alRemove_ne hx s.clients

/-! ### Preservation of the system invariant by each event -/

theorem inv_conns_remove {sys : Sys} (h : Inv sys) (c : Nat) {s' : ServerState}
    (hs : SInv s')
    (hpres : ∀ c' v, c' ≠ c → alGet c' sys.conns = some (some v) →
      (alGet v s'.clients).isSome = true) :
    Inv ⟨s', alRemove c sys.conns⟩ := by
  refine ⟨hs, nodupKeys_alRemove _ h.connsNodup, ?_, ?_⟩
  · intro c' v hg
    by_cases hcc : c' = c
    · subst hcc
      rw [alGet_alRemove_self _ h.connsNodup] at hg
      cases hg
    · rw [alGet_alRemove_ne hcc] at hg
      exact ⟨(h.connReg c' v hg).1, hpres c' v hcc hg⟩
  · intro c₁ c₂ v h₁ h₂
    by_cases hc1 : c₁ = c
    · subst hc1
      rw [alGet_alRemove_self _ h.connsNodup] at h₁
      cases h₁
    · by_cases hc2 : c₂ = c
      · subst hc2
        rw [alGet_alRemove_self _ h.connsNodup] at h₂
        cases h₂
      · rw [alGet_alRemove_ne hc1] at h₁
        rw [alGet_alRemove_ne hc2] at h₂
        exact h.connUniq c₁ c₂ v h₁ h₂

theorem inv_endConn {sys : Sys} (h : Inv sys) {c : Nat} {u : Option String}
    (hc : alGet c sys.conns = some u) : Inv (endConn c u sys) := by
  have hother : ∀ c' v, c' ≠ c → alGet c' sys.conns = some (some v) →
      (alGet v sys.server.clients).isSome = true :=
    fun c' v _ hg => (h.connReg c' v hg).2
  cases u with
  | none => exact inv_conns_remove h c h.sinv hother
  | some uname =>
    show Inv ⟨if uname ≠ "" then cleanup_client uname sys.server else sys.server,
              alRemove c sys.conns⟩
    by_cases hne : uname ≠ ""
    · rw [if_pos hne]
      obtain ⟨hs, _, _, hkeep⟩ := sinv_cleanup uname h.sinv
      refine inv_conns_remove h c hs ?_
      intro c' v hcc hg
      have hvne : v ≠ uname := by
        intro hve
        apply hcc
        refine h.connUniq c' c v hg ?_
        rw [← hve] at hc
        exact hc
      rw [hkeep v hvne]
      exact (h.connReg c' v hg).2
    · rw [if_neg hne]
      exact inv_conns_remove h c h.sinv hother

/-- Invariant after a dispatched frame whose handler returned normally:
the new server state is well-formed, registered records survive, and a
fresh local username (`register`) is nonempty, recorded, and not held by
any other connection. -/
theorem inv_frame_ok {sys : Sys} (h : Inv sys) {c : Nat} {u u' : Option String}
    (hc : alGet c sys.conns = some u) {s' : ServerState} (hs : SInv s')
    (hpres : ∀ x, (alGet x sys.server.clients).isSome = true →
      (alGet x s'.clients).isSome = true)
    (hnew : ∀ v, u' = some v → v ≠ "" ∧ (alGet v s'.clients).isSome = true ∧
      (u = some v ∨ alGet v sys.server.clients = none)) :
    Inv ⟨s', alSet c u' sys.conns⟩ := by
  refine ⟨hs, nodupKeys_alSet _ _ h.connsNodup, ?_, ?_⟩
  · intro c' v hg
    by_cases hcc : c' = c
    · subst hcc
      rw [alGet_alSet_self] at hg
      rcases hnew v (Option.some.inj hg) with ⟨h1, h2, _⟩
      exact ⟨h1, h2⟩
    · rw [alGet_alSet_ne hcc] at hg
      exact ⟨(h.connReg c' v hg).1, hpres v (h.connReg c' v hg).2⟩
  · intro c₁ c₂ v h₁ h₂
    by_cases hic1 : c₁ = c
    · by_cases hic2 : c₂ = c
      · rw [hic1, hic2]
      · rw [hic1, alGet_alSet_self] at h₁
        rw [alGet_alSet_ne hic2] at h₂
        rcases hnew v (Option.some.inj h₁) with ⟨_, _, hold | hfree⟩
        · rw [hic1]
          exact h.connUniq c c₂ v (hold ▸ hc) h₂
        · have hcontra := (h.connReg c₂ v h₂).2
          rw [hfree] at hcontra
          cases hcontra
    · rw [alGet_alSet_ne hic1] at h₁
      by_cases hic2 : c₂ = c
      · rw [hic2, alGet_alSet_self] at h₂
        rcases hnew v (Option.some.inj h₂) with ⟨_, _, hold | hfree⟩
        · rw [hic2]
          exact h.connUniq c₁ c v h₁ (hold ▸ hc)
        · have hcontra := (h.connReg c₁ v h₁).2
          rw [hfree] at hcontra
          cases hcontra
      · rw [alGet_alSet_ne hic2] at h₂
        exact h.connUniq c₁ c₂ v h₁ h₂

/-- Special case of `inv_frame_ok` for a handler that keeps the local
username unchanged. -/
theorem inv_frame_keep {sys : Sys} (h : Inv sys) {c : Nat} {u : Option String}
    (hc : alGet c sys.conns = some u) {s' : ServerState} (hs : SInv s')
    (hpres : ∀ x, (alGet x sys.server.clients).isSome = true →
      (alGet x s'.clients).isSome = true) :
    Inv ⟨s', alSet c u sys.conns⟩ := by
  refine inv_frame_ok h hc hs hpres ?_
  intro v hv
  subst hv
  have hreg := h.connReg c v hc
  exact ⟨hreg.1, hpres v hreg.2, .inl rfl⟩

/-- Dispatching any frame whose handler returns normally preserves the
system invariant. -/
theorem inv_dispatch_ok {sys : Sys} (h : Inv sys) {c : Nat} {u u' : Option String}
    {f : InFrame} {s' : ServerState} {outs : List (Nat × Frame)}
    (hc : alGet c sys.conns = some u)
    (hd : dispatch f u c sys.server = .ok (u', s', outs)) :
    Inv ⟨s', alSet c u' sys.conns⟩ := by
  cases f with
  | badJson =>
    simp only [dispatch, Except.ok.injEq, Prod.mk.injEq] at hd
    obtain ⟨h1, h2, _⟩ := hd
    rw [← h1, ← h2]
    exact inv_frame_keep h hc h.sinv (fun x hx => hx)
  | msg action mu mr mm =>
    simp only [dispatch] at hd
    by_cases ha1 : action = some "register"
    · rw [if_pos ha1] at hd
      have heq := Except.ok.inj hd
      rcases handle_register_cases mu c sys.server with ⟨m, hm⟩ |
        ⟨u₀, _, hne, hfree, hm⟩
      · rw [hm] at heq
        simp only [Prod.mk.injEq] at heq
        obtain ⟨h1, h2, _⟩ := heq
        rw [← h1, ← h2]
        exact inv_frame_ok h hc h.sinv (fun x hx => hx)
          (fun v hv => Option.noConfusion hv)
      · rw [hm] at heq
        simp only [Prod.mk.injEq] at heq
        obtain ⟨h1, h2, _⟩ := heq
        rw [← h1, ← h2]
        refine inv_frame_ok h hc (sinv_register_success h.sinv hne hfree) ?_ ?_
        · intro x hx
          by_cases hxu : x = u₀
          · subst hxu
            rw [alGet_alSet_self]
            rfl
          · rw [alGet_alSet_ne hxu]
            exact hx
        · intro v hv
          have hv0 : v = u₀ := (Option.some.inj hv).symm
          subst hv0
          refine ⟨hne, ?_, .inr hfree⟩
          rw [alGet_alSet_self]
          rfl
    · rw [if_neg ha1] at hd
      by_cases ha2 : action = some "list_rooms"
      · rw [if_pos ha2] at hd
        simp only [Except.ok.injEq, Prod.mk.injEq] at hd
        obtain ⟨h1, h2, _⟩ := hd
        rw [← h1, ← h2]
        exact inv_frame_keep h hc h.sinv (fun x hx => hx)
      · rw [if_neg ha2] at hd
        by_cases ha3 : action = some "create_room"
        · rw [if_pos ha3] at hd
          simp only [Except.ok.injEq, Prod.mk.injEq] at hd
          obtain ⟨h1, h2, _⟩ := hd
          rcases handle_create_room_cases mr c u sys.server with ⟨m, hm⟩ |
            ⟨r₀, _, hrne, hfree, hm⟩
          · rw [hm] at h2
            rw [← h1, ← h2]
            exact inv_frame_keep h hc h.sinv (fun x hx => hx)
          · rw [hm] at h2
            rw [← h1, ← h2]
            exact inv_frame_keep h hc (sinv_create_success h.sinv hrne hfree)
              (fun x hx => hx)
        · rw [if_neg ha3] at hd
          by_cases ha4 : action = some "join_room"
          · rw [if_pos ha4] at hd
            rcases handle_join_room_cases mr c u sys.server with ⟨m, hm⟩ |
              herr | ⟨uname, r₀, info, hu, hune, hmr, hrne, hrex, hget, hm⟩
            · rw [hm] at hd
              simp only [Except.map, Except.ok.injEq, Prod.mk.injEq] at hd
              obtain ⟨h1, h2, _⟩ := hd
              rw [← h1, ← h2]
              exact inv_frame_keep h hc h.sinv (fun x hx => hx)
            · rw [herr] at hd
              simp only [Except.map] at hd
              cases hd
            · rw [hm] at hd
              simp only [Except.map, Except.ok.injEq, Prod.mk.injEq] at hd
              obtain ⟨h1, h2, _⟩ := hd
              rw [← h1, ← h2]
              refine inv_frame_keep h hc
                (sinv_join_success h.sinv hget hrex rfl) ?_
              intro x hx
              show (alGet x (alUpdate uname
                (fun i => ⟨i.writer, some r₀⟩) sys.server.clients)).isSome = true
              rw [isSome_alGet_alUpdate]
              exact hx
          · rw [if_neg ha4] at hd
            by_cases ha5 : action = some "leave_room"
            · rw [if_pos ha5] at hd
              rcases handle_leave_room_cases c u sys.server with ⟨m, hm⟩ |
                herr | ⟨uname, info, cr, hu, hune, hget, hroom, hcr, hmem, hm⟩
              · rw [hm] at hd
                simp only [Except.map, Except.ok.injEq, Prod.mk.injEq] at hd
                obtain ⟨h1, h2, _⟩ := hd
                rw [← h1, ← h2]
                exact inv_frame_keep h hc h.sinv (fun x hx => hx)
              · rw [herr] at hd
                simp only [Except.map] at hd
                cases hd
              · rw [hm] at hd
                simp only [Except.map, Except.ok.injEq, Prod.mk.injEq] at hd
                obtain ⟨h1, h2, _⟩ := hd
                rw [← h1, ← h2]
                refine inv_frame_keep h hc
                  (sinv_leave_success h.sinv hget hroom hcr hmem) ?_
                intro x hx
                show (alGet x (alUpdate uname
                  (fun i => ⟨i.writer, none⟩) sys.server.clients)).isSome = true
                rw [isSome_alGet_alUpdate]
                exact hx
            · rw [if_neg ha5] at hd
              by_cases ha6 : action = some "send_message"
              · rw [if_pos ha6] at hd
                rcases handle_send_message_state mm c u sys.server with
                  ⟨out, hm⟩ | herr
                · rw [hm] at hd
                  simp only [Except.map, Except.ok.injEq, Prod.mk.injEq] at hd
                  obtain ⟨h1, h2, _⟩ := hd
                  rw [← h1, ← h2]
                  exact inv_frame_keep h hc h.sinv (fun x hx => hx)
                · rw [herr] at hd
                  simp only [Except.map] at hd
                  cases hd
              · rw [if_neg ha6] at hd
                simp only [Except.ok.injEq, Prod.mk.injEq] at hd
                obtain ⟨h1, h2, _⟩ := hd
                rw [← h1, ← h2]
                exact inv_frame_keep h hc h.sinv (fun x hx => hx)

/-- Every event preserves the system invariant. -/
theorem inv_applyEvent (e : Event) {sys : Sys} (h : Inv sys) :
    Inv (applyEvent e sys) := by
  cases e with
  | connect c =>
    show Inv (match alGet c sys.conns with
      | some _ => sys
      | none => ⟨sys.server, alSet c none sys.conns⟩)
    cases hg : alGet c sys.conns with
    | some v => exact h
    | none =>
      refine ⟨h.sinv, nodupKeys_alSet _ _ h.connsNodup, ?_, ?_⟩
      · intro c' v hgv
        by_cases hcc : c' = c
        · rw [hcc, alGet_alSet_self] at hgv
          cases Option.some.inj hgv
        · rw [alGet_alSet_ne hcc] at hgv
          exact h.connReg c' v hgv
      · intro c₁ c₂ v h₁ h₂
        by_cases hc1 : c₁ = c
        · rw [hc1, alGet_alSet_self] at h₁
          cases Option.some.inj h₁
        · rw [alGet_alSet_ne hc1] at h₁
          by_cases hc2 : c₂ = c
          · rw [hc2, alGet_alSet_self] at h₂
            cases Option.some.inj h₂
          · rw [alGet_alSet_ne hc2] at h₂
            exact h.connUniq c₁ c₂ v h₁ h₂
  | frame c f =>
    show Inv (match alGet c sys.conns with
      | none => sys
      | some u =>
        match dispatch f u c sys.server with
        | .ok (u', s', _) => ⟨s', alSet c u' sys.conns⟩
        | .error _ => endConn c u sys)
    cases hg : alGet c sys.conns with
    | none => exact h
    | some u =>
      show Inv (match dispatch f u c sys.server with
        | .ok (u', s', _) => ⟨s', alSet c u' sys.conns⟩
        | .error _ => endConn c u sys)
      cases hd : dispatch f u c sys.server with
      | error e => exact inv_endConn h hg
      | ok t =>
        obtain ⟨u', s', outs⟩ := t
        exact inv_dispatch_ok h hg hd
  | disconnect c =>
    show Inv (match alGet c sys.conns with
      | none => sys
      | some u => endConn c u sys)
    cases hg : alGet c sys.conns with
    | none => exact h
    | some u => exact inv_endConn h hg

theorem inv_foldl (es : List Event) (sys : Sys) (h : Inv sys) :
    Inv (es.foldl (fun s e => applyEvent e s) sys) := by
  induction es generalizing sys with
  | nil => exact h
  | cons e es ih => exact ih _ (inv_applyEvent e h)

/-- Every reachable state satisfies the invariant. -/
theorem inv_reachable {sys : Sys} (h : Reachable sys) : Inv sys := by
  rcases h with ⟨es, rfl⟩
  exact inv_foldl es initSys inv_init

/-- Transferring key presence across two association lists with the same
key sequence. -/
theorem alGet_some_of_keys_eq {β γ : Type} {l₁ : List (String × β)}
    {l₂ : List (String × γ)} (hk : l₁.map Prod.fst = l₂.map Prod.fst)
    {k : String} (h : (alGet k l₂).isSome = true) : ∃ v, alGet k l₁ = some v := by
  cases hg : alGet k l₁ with
  | some v => exact ⟨v, rfl⟩
  | none =>
    exfalso
    have hmem := (alGet_eq_none_iff k l₁).mp hg
    rw [hk] at hmem
    cases hg2 : alGet k l₂ with
    | none => rw [hg2] at h; cases h
    | some m => exact hmem (List.mem_map.mpr ⟨(k, m), alGet_mem hg2, rfl⟩)

/-- Every delivery of `broadcast_room` is addressed to a member of the
room being broadcast to. -/
theorem mem_broadcast_room {s : ServerState} {room : String} {pl : Frame}
    {d : String × Nat × Frame} (hd : d ∈ broadcast_room s room pl) :
    d.1 ∈ roomGet s room := by
  rcases List.mem_filterMap.mp hd with ⟨x, hx, hfx⟩
  cases hg : alGet x s.clients with
  | none => rw [hg] at hfx; cases hfx
  | some i =>
    rw [hg] at hfx
    cases Option.some.inj hfx
    exact hx

/-- Every member of the room with a live session record receives the
broadcast on their recorded writer. -/
theorem broadcast_room_mem {s : ServerState} {room : String} (pl : Frame)
    {x : String} {i : ClientInfo} (hx : x ∈ roomGet s room)
    (hg : alGet x s.clients = some i) :
    (x, i.writer, pl) ∈ broadcast_room s room pl := by
  refine List.mem_filterMap.mpr ⟨x, hx, ?_⟩
  rw [hg]
  rfl

/-! ## Claim theorems -/

/-- C1: at every reachable state of the server — after any sequence of
register, create_room, join_room, leave_room, send_message and
connection-cleanup operations — each session identity appears in the
member set of at most one room. -/
theorem session_in_at_most_one_room {sys : Sys} (h : Reachable sys) :
    ∀ p₁ ∈ sys.server.rooms, ∀ p₂ ∈ sys.server.rooms, ∀ u : String,
      u ∈ p₁.2 → u ∈ p₂.2 → p₁.1 = p₂.1 := by
  intro p₁ hp₁ p₂ hp₂ u hu₁ hu₂
  have hi := (inv_reachable h).sinv
  rcases hi.memberReg p₁ hp₁ u hu₁ with ⟨i₁, hg₁, hr₁⟩
  rcases hi.memberReg p₂ hp₂ u hu₂ with ⟨i₂, hg₂, hr₂⟩
  rw [hg₁] at hg₂
  cases Option.some.inj hg₂
  rw [hr₁] at hr₂
  exact Option.some.inj hr₂

theorem session_in_at_most_one_room_witness :
    (("sports", ["alice"]) ∈ (runEvents [Event.connect 0,
        Event.frame 0 (.msg (some "register") (some "alice") none none),
        Event.frame 0 (.msg (some "create_room") none (some "sports") none),
        Event.frame 0 (.msg (some "join_room") none (some "sports") none)]).server.rooms) ∧
    (("sports", ["alice"]) : String × List String).1
      = (("sports", ["alice"]) : String × List String).1 :=
  ⟨by decide,
   @session_in_at_most_one_room (runEvents [Event.connect 0,
       Event.frame 0 (.msg (some "register") (some "alice") none none),
       Event.frame 0 (.msg (some "create_room") none (some "sports") none),
       Event.frame 0 (.msg (some "join_room") none (some "sports") none)])
     ⟨_, rfl⟩ ("sports", ["alice"]) (by decide)
     ("sports", ["alice"]) (by decide) "alice" (by decide) (by decide)⟩

/-- C5: the default room `"general"` is present in the room registry — and
hence in every `listRooms` response — at every reachable state, including
when its member set is empty; no operation ever deletes it. -/
theorem default_room_never_deleted {sys : Sys} (h : Reachable sys) :
    (alGet "general" sys.server.rooms).isSome = true ∧
    "general" ∈ listRoomNames sys.server := by
  have hi := (inv_reachable h).sinv
  refine ⟨?_, hi.generalMem⟩
  rcases sinv_general_get hi with ⟨m, hm⟩
  rw [hm]
  rfl

theorem default_room_never_deleted_witness :
    (alGet "general" (runEvents []).server.rooms).isSome = true ∧
    "general" ∈ listRoomNames (runEvents []).server :=
  default_room_never_deleted ⟨[], rfl⟩

/-- C2 counterexample: a connection registers `"alice"` successfully, then
sends a second `register` with the same (now taken) name; the handler
returns `None`, which `handle_client` assigns to its `username` local
(line 73), so the `finally` cleanup (lines 92-93) finds a falsy username
and runs no cleanup.  After the loop terminates the connection is gone,
yet alice's session record and room membership persist — refuting the
claim that a terminated connection that had successfully registered at
some point always has its identity cleaned up. -/
theorem cleanup_missed_after_failed_reregister :
    alGet 0 (runEvents [Event.connect 0,
      Event.frame 0 (.msg (some "register") (some "alice") none none)]).conns
      = some (some "alice") ∧
    alGet 0 (runEvents [Event.connect 0,
      Event.frame 0 (.msg (some "register") (some "alice") none none),
      Event.frame 0 (.msg (some "register") (some "alice") none none),
      Event.disconnect 0]).conns = none ∧
    alGet "alice" (runEvents [Event.connect 0,
      Event.frame 0 (.msg (some "register") (some "alice") none none),
      Event.frame 0 (.msg (some "register") (some "alice") none none),
      Event.disconnect 0]).server.clients = some ⟨0, some "general"⟩ ∧
    "alice" ∈ roomGet (runEvents [Event.connect 0,
      Event.frame 0 (.msg (some "register") (some "alice") none none),
      Event.frame 0 (.msg (some "register") (some "alice") none none),
      Event.disconnect 0]).server "general" := by
  refine ⟨rfl, rfl, rfl, ?_⟩
  decide

/-- C2 (amended): when a connection's handler loop terminates, if its
`username` local still holds an identity (i.e. the most recent `register`
attempt on that connection succeeded and was not overwritten by a later
attempt), then that identity's session record is deleted and the identity
is removed from every room's member set.  (The unamended claim — cleanup
of any identity the connection ever successfully registered — fails, see
`cleanup_missed_after_failed_reregister`.) -/
theorem cleanup_on_disconnect {sys : Sys} (h : Reachable sys) {c : Nat}
    {u : String} (hc : alGet c sys.conns = some (some u)) :
    alGet u (applyEvent (.disconnect c) sys).server.clients = none ∧
    ∀ p ∈ (applyEvent (.disconnect c) sys).server.rooms, u ∉ p.2 := by
  have hi := inv_reachable h
  have hne : u ≠ "" := (hi.connReg c u hc).1
  have happ : (applyEvent (.disconnect c) sys).server = cleanup_client u sys.server := by
    show (match alGet c sys.conns with
      | none => sys
      | some u => endConn c u sys).server = cleanup_client u sys.server
    rw [hc]
    show (if u ≠ "" then cleanup_client u sys.server else sys.server) = _
    rw [if_pos hne]
  rw [happ]
  obtain ⟨_, hnone, hgone, _⟩ := sinv_cleanup u hi.sinv
  exact ⟨hnone, hgone⟩

theorem cleanup_on_disconnect_witness :
    alGet "alice" (applyEvent (.disconnect 0) (runEvents [Event.connect 0,
      Event.frame 0 (.msg (some "register") (some "alice") none none)])).server.clients
      = none ∧
    ∀ p ∈ (applyEvent (.disconnect 0) (runEvents [Event.connect 0,
      Event.frame 0 (.msg (some "register") (some "alice") none none)])).server.rooms,
      "alice" ∉ p.2 :=
  cleanup_on_disconnect ⟨_, rfl⟩ rfl

/-- C3: if a registration of name `n` succeeded from state `s` (producing
`s₁`), a second registration attempt with the same name fails with the
name-taken error frame and returns the state `s₁` unchanged — the first
registrant's session record and room membership are untouched. -/
theorem second_register_same_name_fails {s s₁ : ServerState} {n : String}
    {c₁ c₂ : Nat} {outs₁ : List (Nat × Frame)}
    (h : handle_register (some n) c₁ s = (some n, s₁, outs₁)) :
    handle_register (some n) c₂ s₁ =
      (none, s₁, [(c₂, Frame.error "username already taken")]) := by
  rcases handle_register_cases (some n) c₁ s with ⟨m, hm⟩ |
    ⟨u₀, hmu, hne, hfree, hm⟩
  · rw [hm] at h
    simp only [Prod.mk.injEq] at h
    cases h.1
  · have hu : u₀ = n := Option.some.inj hmu.symm
    subst hu
    rw [hm] at h
    simp only [Prod.mk.injEq] at h
    obtain ⟨-, h2, -⟩ := h
    subst h2
    have hsome : (alGet u₀ (alSet u₀ ⟨c₁, some "general"⟩ s.clients)).isSome = true := by
      rw [alGet_alSet_self]
      rfl
    simp only [handle_register, if_neg hne, hsome, if_pos]

theorem second_register_same_name_fails_witness :
    handle_register (some "alice") 1
      (⟨[("alice", ⟨0, some "general"⟩)], [("general", ["alice"])]⟩ : ServerState) =
      (none,
       (⟨[("alice", ⟨0, some "general"⟩)], [("general", ["alice"])]⟩ : ServerState),
       [(1, Frame.error "username already taken")]) :=
  @second_register_same_name_fails initSys.server
    ⟨[("alice", ⟨0, some "general"⟩)], [("general", ["alice"])]⟩ "alice" 0 1
    [(0, Frame.info "Registered as alice" (some "general"))] rfl

/-- C4: a registered session currently in room `R` that successfully joins
an existing room `T` (with `R ≠ T`: the join moves it out of its previous
room into the target) is afterwards absent from `R`'s member set, present
in `T`'s member set and in no other room's member set; a subsequent
broadcast to `R` has no delivery addressed to this session, and a
subsequent broadcast to `T` delivers to it on its recorded writer. -/
theorem join_moves_membership {sys : Sys} (h : Reachable sys) {c : Nat}
    {u R T : String} {info : ClientInfo}
    (hc : alGet c sys.conns = some (some u))
    (hget : alGet u sys.server.clients = some info) (hR : info.room = some R)
    (hT : (alGet T sys.server.rooms).isSome = true) (hRT : R ≠ T) (pl : Frame) :
    u ∈ roomGet sys.server R ∧
    ∃ s', handle_join_room (some T) c (some u) sys.server =
        .ok (s', [(c, Frame.roomJoined T)]) ∧
      u ∈ roomGet s' T ∧
      u ∉ roomGet s' R ∧
      (∀ p ∈ s'.rooms, u ∈ p.2 → p.1 = T) ∧
      (∀ d ∈ broadcast_room s' R pl, d.1 ≠ u) ∧
      (u, info.writer, pl) ∈ broadcast_room s' T pl := by
  have hi := inv_reachable h
  have hune : u ≠ "" := (hi.connReg c u hc).1
  have hinR : u ∈ roomGet sys.server R :=
    hi.sinv.regMember (u, info) (alGet_mem hget) R hR
  obtain ⟨mT, hmT⟩ : ∃ m, alGet T sys.server.rooms = some m := by
    cases hg : alGet T sys.server.rooms with
    | some m => exact ⟨m, rfl⟩
    | none => rw [hg] at hT; cases hT
  have hTne : T ≠ "" := hi.sinv.roomKeyNe (T, mT) (alGet_mem hmT)
  obtain ⟨rooms1, hrooms1⟩ : ∃ ro, (match info.room with
      | none => sys.server.rooms
      | some cr =>
        if cr ≠ "" ∧ u ∈ roomGet sys.server cr then
          alUpdate cr (fun m => m.erase u) sys.server.rooms
        else sys.server.rooms) = ro := ⟨_, rfl⟩
  have heq : handle_join_room (some T) c (some u) sys.server =
      .ok (⟨alUpdate u (fun i => ⟨i.writer, some T⟩) sys.server.clients,
            alUpdate T (setAdd u) rooms1⟩,
           [(c, .roomJoined T)]) := by
    rw [← hrooms1]
    simp only [handle_join_room, if_neg hune, if_neg hTne, hT,
      Bool.true_eq_false, if_neg, not_false_iff, hget]
  obtain ⟨hkeys, hnodup, hgone, hpres⟩ := sinv_removed hi.sinv hget hrooms1.symm
  obtain ⟨m1, hm1⟩ := alGet_some_of_keys_eq hkeys hT
  have h2 : u ∈ (alGet T (alUpdate T (setAdd u) rooms1)).getD [] := by
    rw [alGet_alUpdate, if_pos rfl, hm1]
    exact mem_setAdd.mpr (.inl rfl)
  have h3 : u ∉ (alGet R (alUpdate T (setAdd u) rooms1)).getD [] := by
    rw [alGet_alUpdate, if_neg hRT]
    cases hg : alGet R rooms1 with
    | none => simp
    | some m => exact hgone (R, m) (alGet_mem hg)
  have h4 : ∀ p ∈ alUpdate T (setAdd u) rooms1, u ∈ p.2 → p.1 = T := by
    intro p hp hu
    rcases List.mem_map.mp hp with ⟨q, hq, he⟩
    by_cases hqT : q.1 = T
    · rw [if_pos hqT] at he
      rw [← he]
      exact hqT
    · rw [if_neg hqT] at he
      rw [← he] at hu
      exact absurd hu (hgone q hq)
  have hclient : alGet u (alUpdate u (fun i => ⟨i.writer, some T⟩)
      sys.server.clients) = some ⟨info.writer, some T⟩ := by
    rw [alGet_alUpdate, if_pos rfl, hget]
    rfl
  refine ⟨hinR, _, heq, h2, h3, h4, ?_, ?_⟩
  · intro d hd he
    have hm := mem_broadcast_room hd
    rw [he] at hm
    exact h3 hm
  · exact @broadcast_room_mem _ _ pl _ ⟨info.writer, some T⟩ h2 hclient

theorem join_moves_membership_witness :
    "alice" ∈ roomGet (runEvents [Event.connect 0,
      Event.frame 0 (.msg (some "register") (some "alice") none none),
      Event.frame 0 (.msg (some "create_room") none (some "sports") none)]).server
      "general" ∧
    ∃ s', handle_join_room (some "sports") 0 (some "alice")
        (runEvents [Event.connect 0,
          Event.frame 0 (.msg (some "register") (some "alice") none none),
          Event.frame 0 (.msg (some "create_room") none (some "sports") none)]).server =
        .ok (s', [(0, Frame.roomJoined "sports")]) ∧
      "alice" ∈ roomGet s' "sports" ∧
      "alice" ∉ roomGet s' "general" ∧
      (∀ p ∈ s'.rooms, "alice" ∈ p.2 → p.1 = "sports") ∧
      (∀ d ∈ broadcast_room s' "general" (Frame.chatMessage "general" "bob" "hi"),
        d.1 ≠ "alice") ∧
      ("alice", 0, Frame.chatMessage "general" "bob" "hi")
        ∈ broadcast_room s' "sports" (Frame.chatMessage "general" "bob" "hi") :=
  @join_moves_membership
    (runEvents [Event.connect 0,
      Event.frame 0 (.msg (some "register") (some "alice") none none),
      Event.frame 0 (.msg (some "create_room") none (some "sports") none)])
    ⟨_, rfl⟩ 0 "alice" "general" "sports" ⟨0, some "general"⟩
    rfl rfl rfl rfl (by decide) (Frame.chatMessage "general" "bob" "hi")

/-- C6: whenever the dispatcher answers a request with (only) an error
frame — which is exactly how every validation failure is reported: missing
required field, duplicate name, unknown room, acting before registration,
leaving while not in a room, as well as malformed or unknown frames — the
session registry and room registry are exactly as they were before the
request: no state change on error. -/
theorem validation_error_preserves_state {f : InFrame} {u : Option String}
    {c : Nat} {s : ServerState} {u' : Option String} {s' : ServerState}
    {outs : List (Nat × Frame)}
    (hd : dispatch f u c s = .ok (u', s', outs))
    {c' : Nat} {m : String} (he : outs = [(c', Frame.error m)]) :
    s' = s := by
  cases f with
  | badJson =>
    simp only [dispatch, Except.ok.injEq, Prod.mk.injEq] at hd
    exact hd.2.1.symm
  | msg action mu mr mm =>
    simp only [dispatch] at hd
    by_cases ha1 : action = some "register"
    · rw [if_pos ha1] at hd
      have heq := Except.ok.inj hd
      rcases handle_register_cases mu c s with ⟨m0, hm⟩ | ⟨u₀, _, _, _, hm⟩
      · rw [hm] at heq
        simp only [Prod.mk.injEq] at heq
        exact heq.2.1.symm
      · rw [hm] at heq
        simp only [Prod.mk.injEq] at heq
        rw [← heq.2.2] at he
        simp at he
    · rw [if_neg ha1] at hd
      by_cases ha2 : action = some "list_rooms"
      · rw [if_pos ha2] at hd
        simp only [Except.ok.injEq, Prod.mk.injEq] at hd
        rw [← hd.2.2] at he
        simp [handle_list_rooms] at he
      · rw [if_neg ha2] at hd
        by_cases ha3 : action = some "create_room"
        · rw [if_pos ha3] at hd
          simp only [Except.ok.injEq, Prod.mk.injEq] at hd
          rcases handle_create_room_cases mr c u s with ⟨m0, hm⟩ |
            ⟨r₀, _, _, _, hm⟩
          · rw [hm] at hd
            exact hd.2.1.symm
          · rw [hm] at hd
            rw [← hd.2.2] at he
            simp at he
        · rw [if_neg ha3] at hd
          by_cases ha4 : action = some "join_room"
          · rw [if_pos ha4] at hd
            rcases handle_join_room_cases mr c u s with ⟨m0, hm⟩ | herr |
              ⟨uname, r₀, info, _, _, _, _, _, _, hm⟩
            · rw [hm] at hd
              simp only [Except.map, Except.ok.injEq, Prod.mk.injEq] at hd
              exact hd.2.1.symm
            · rw [herr] at hd
              simp only [Except.map] at hd
              exact Except.noConfusion hd
            · rw [hm] at hd
              simp only [Except.map, Except.ok.injEq, Prod.mk.injEq] at hd
              rw [← hd.2.2] at he
              simp at he
          · rw [if_neg ha4] at hd
            by_cases ha5 : action = some "leave_room"
            · rw [if_pos ha5] at hd
              rcases handle_leave_room_cases c u s with ⟨m0, hm⟩ | herr |
                ⟨uname, info, cr, _, _, _, _, _, _, hm⟩
              · rw [hm] at hd
                simp only [Except.map, Except.ok.injEq, Prod.mk.injEq] at hd
                exact hd.2.1.symm
              · rw [herr] at hd
                simp only [Except.map] at hd
                exact Except.noConfusion hd
              · rw [hm] at hd
                simp only [Except.map, Except.ok.injEq, Prod.mk.injEq] at hd
                rw [← hd.2.2] at he
                simp at he
            · rw [if_neg ha5] at hd
              by_cases ha6 : action = some "send_message"
              · rw [if_pos ha6] at hd
                rcases handle_send_message_state mm c u s with ⟨out, hm⟩ | herr
                · rw [hm] at hd
                  simp only [Except.map, Except.ok.injEq, Prod.mk.injEq] at hd
                  exact hd.2.1.symm
                · rw [herr] at hd
                  simp only [Except.map] at hd
                  exact Except.noConfusion hd
              · rw [if_neg ha6] at hd
                simp only [Except.ok.injEq, Prod.mk.injEq] at hd
                exact hd.2.1.symm

theorem validation_error_preserves_state_witness :
    initSys.server = initSys.server :=
  @validation_error_preserves_state (.msg (some "join_room") none none none)
    none 0 initSys.server none initSys.server
    [(0, Frame.error "register first")] rfl 0 "register first" rfl

/-- C8 (refuting the snapshot claim): `broadcast_room` iterates the very
set object stored in the room registry — `users = self.rooms.get(room,
set())` (line 224) takes no copy — so a membership mutation landing at the
`await writer.drain()` suspension point between two deliveries changes the
recipients of the in-flight broadcast.  Concretely: the reachable state
below has `general` = {alice, bob}; `m.erase "bob"` is exactly the member
mutation bob's `leave_room` performs during the gap (second conjunct);
the aliased iteration the source performs then never delivers to bob
(in CPython the `set` iterator raises `RuntimeError` instead), while the
copy-before-iterate semantics the spec mandates delivers to both. -/
theorem broadcast_iterates_live_set :
    roomGet (runEvents [Event.connect 0,
      Event.frame 0 (.msg (some "register") (some "alice") none none),
      Event.connect 1,
      Event.frame 1 (.msg (some "register") (some "bob") none none)]).server
      "general" = ["alice", "bob"] ∧
    roomGet (runEvents [Event.connect 0,
      Event.frame 0 (.msg (some "register") (some "alice") none none),
      Event.connect 1,
      Event.frame 1 (.msg (some "register") (some "bob") none none),
      Event.frame 1 (.msg (some "leave_room") none none none)]).server
      "general" = ["alice"] ∧
    aliasedDeliveries 0 ["alice", "bob"] [fun m => m.erase "bob"] = ["alice"] ∧
    snapshotDeliveries ["alice", "bob"] [fun m => m.erase "bob"]
      = ["alice", "bob"] ∧
    aliasedDeliveries 0 ["alice", "bob"] [fun m => m.erase "bob"] ≠
      snapshotDeliveries ["alice", "bob"] [fun m => m.erase "bob"] :=
  ⟨rfl, rfl, rfl, rfl, by decide⟩

/-- C9 (spec-modelled, Profile B): when the last member of a non-default
room leaves it — by leaveRoom or by disconnect cleanup, both of which
perform this removal step — the room is removed from the room registry and
no longer appears among the room names listRooms reports; the default room
under the same condition is kept (with an empty member set). -/
theorem last_member_leave_deletes_room
    (rooms : List (String × List String)) (R u : String)
    (hnd : KeysNodup rooms) (hlast : alGet R rooms = some [u]) :
    (R ≠ "general" →
      alGet R (removeMemberB "general" R u rooms) = none ∧
      R ∉ (removeMemberB "general" R u rooms).map Prod.fst) ∧
    (R = "general" →
      alGet R (removeMemberB "general" R u rooms) = some [] ∧
      R ∈ (removeMemberB "general" R u rooms).map Prod.fst) := by
  have hup : alGet R (alUpdate R (fun m => m.erase u) rooms) = some [] := by
    rw [alGet_alUpdate, if_pos rfl, hlast]
    simp
  have hndup : KeysNodup (alUpdate R (fun m => m.erase u) rooms) :=
    nodupKeys_alUpdate _ _ hnd
  have hred : removeMemberB "general" R u rooms =
      if R = "general" then alUpdate R (fun m => m.erase u) rooms
      else alRemove R (alUpdate R (fun m => m.erase u) rooms) := by
    simp only [removeMemberB]
    rw [hup]
  constructor
  · intro hne
    rw [hred, if_neg hne]
    have hnone := alGet_alRemove_self R hndup
    exact ⟨hnone, (alGet_eq_none_iff _ _).mp hnone⟩
  · intro he
    rw [hred, if_pos he]
    exact ⟨hup, List.mem_map.mpr ⟨(R, []), alGet_mem hup, rfl⟩⟩

theorem last_member_leave_deletes_room_witness :
    ("sports" ≠ "general" →
      alGet "sports" (removeMemberB "general" "sports" "bob"
        [("general", ["alice"]), ("sports", ["bob"])]) = none ∧
      "sports" ∉ (removeMemberB "general" "sports" "bob"
        [("general", ["alice"]), ("sports", ["bob"])]).map Prod.fst) ∧
    ("sports" = "general" →
      alGet "sports" (removeMemberB "general" "sports" "bob"
        [("general", ["alice"]), ("sports", ["bob"])]) = some [] ∧
      "sports" ∈ (removeMemberB "general" "sports" "bob"
        [("general", ["alice"]), ("sports", ["bob"])]).map Prod.fst) :=
  last_member_leave_deletes_room [("general", ["alice"]), ("sports", ["bob"])]
    "sports" "bob" (by decide) rfl

/-- C10 (implicit): `handle_register` never checks whether the connection
already holds an identity.  A connection registered as `a` (record on
writer `w`, member of room `r`) that sends a second register with a fresh
nonempty name `b` succeeds: a second session record on the same writer is
created in the default room, while `a`'s record and room membership
persist, and a broadcast to `a`'s room still delivers to `a` on this very
writer. -/
theorem register_ignores_existing_identity {s : ServerState} {a b r : String}
    {w : Nat} (ha : alGet a s.clients = some ⟨w, some r⟩)
    (ham : a ∈ roomGet s r) (hb : b ≠ "") (hba : b ≠ a)
    (hfree : alGet b s.clients = none) (pl : Frame) :
    ∃ s' outs, handle_register (some b) w s = (some b, s', outs) ∧
      alGet b s'.clients = some ⟨w, some "general"⟩ ∧
      alGet a s'.clients = some ⟨w, some r⟩ ∧
      a ∈ roomGet s' r ∧
      (a, w, pl) ∈ broadcast_room s' r pl := by
  have heq : handle_register (some b) w s =
      (some b, ⟨alSet b ⟨w, some "general"⟩ s.clients,
                alUpdate "general" (setAdd b) s.rooms⟩,
       [(w, .info ("Registered as " ++ b) (some "general"))]) := by
    simp only [handle_register, if_neg hb, hfree, Option.isSome_none,
      Bool.false_eq_true, if_neg, not_false_iff]
  have hane : a ≠ b := fun he => hba he.symm
  have hA : alGet a (alSet b (⟨w, some "general"⟩ : ClientInfo) s.clients)
      = some ⟨w, some r⟩ := by
    rw [alGet_alSet_ne hane]
    exact ha
  have hmem : a ∈ (alGet r (alUpdate "general" (setAdd b) s.rooms)).getD [] := by
    rcases mem_roomGet.mp ham with ⟨m, hm, ham'⟩
    rw [alGet_alUpdate]
    by_cases hrg : r = "general"
    · subst hrg
      rw [if_pos rfl, hm]
      exact mem_setAdd.mpr (.inr ham')
    · rw [if_neg hrg, hm]
      exact ham'
  refine ⟨_, _, heq, alGet_alSet_self _ _ _, hA, hmem, ?_⟩
  exact @broadcast_room_mem _ _ pl _ ⟨w, some r⟩ hmem hA

theorem register_ignores_existing_identity_witness :
    ∃ s' outs, handle_register (some "bob") 0
        (⟨[("alice", ⟨0, some "general"⟩)],
          [("general", ["alice"])]⟩ : ServerState) = (some "bob", s', outs) ∧
      alGet "bob" s'.clients = some ⟨0, some "general"⟩ ∧
      alGet "alice" s'.clients = some ⟨0, some "general"⟩ ∧
      "alice" ∈ roomGet s' "general" ∧
      ("alice", 0, Frame.chatMessage "general" "bob" "hi")
        ∈ broadcast_room s' "general" (Frame.chatMessage "general" "bob" "hi") :=
  @register_ignores_existing_identity
    ⟨[("alice", ⟨0, some "general"⟩)], [("general", ["alice"])]⟩
    "alice" "bob" "general" 0 rfl (by decide) (by decide) (by decide)
    rfl (Frame.chatMessage "general" "bob" "hi")

end ChatMulti
